import Mathlib

set_option maxHeartbeats 1000000
set_option maxRecDepth 8192
set_option linter.unusedVariables false
set_option linter.unnecessarySimpa false

/-!
Shallow embedding of the ncre regular-expression engine (a TypeScript
re-implementation of .NET regular expressions) and proofs about it.

Strings are modelled as lists of characters (`Str`).  JavaScript string
primitives (`substring`, `substr`) are modelled with their clamping and
argument-swapping semantics.  Mutable matcher state is modelled by explicit
state passing: a method `m(state): T | undefined` that mutates `state`
becomes a function `σ → Option T × σ` returning the possibly-updated state
in both the success and the failure case.
-/

abbrev Str := List Char

/-- The character `$` (36). -/
def dollarChar : Char := '$'

/-- The character backslash (92). -/
def bslashChar : Char := Char.ofNat 92

/-- The character left curly brace (123). -/
def lbraceChar : Char := Char.ofNat 123

/-- The character right curly brace (125). -/
def rbraceChar : Char := Char.ofNat 125

/-- The character backquote (96). -/
def bquoteChar : Char := Char.ofNat 96

/-- The character single quote (39). -/
def squoteChar : Char := Char.ofNat 39

/-- The character `0` (48). -/
def zeroChar : Char := '0'

/-- Clamp a JavaScript string index into `[0, len]`. -/
def jsClamp (len : Nat) (i : Int) : Nat := (max 0 (min i len)).toNat

/-- JavaScript `str.substring(a, b)`: both indices are clamped to
`[0, length]` and swapped if `a > b`. -/
def jsSubstring (s : Str) (a b : Int) : Str :=
  let x := jsClamp s.length a
  let y := jsClamp s.length b
  (s.drop (min x y)).take (max x y - min x y)

/-- JavaScript `str.substr(start, length?)`: a negative `start` counts from
the end; the result has at most `length` characters (to the end of the
string if `length` is omitted). -/
def jsSubstr (s : Str) (start : Option Int) (length : Option Int) : Str :=
  let size : Int := s.length
  let st := start.getD 0
  let st2 := if st < 0 then max (size + st) 0 else min st size
  let len := match length with
    | none => size - st2
    | some l => min (max l 0) (size - st2)
  (s.drop st2.toNat).take len.toNat

/-- Insert an integer into an ascending list (helper for `sortInts`). -/
def insertSortedInt (x : Int) : List Int → List Int
  | [] => [x]
  | y :: ys => if x < y then x :: y :: ys else y :: insertSortedInt x ys

/-- Ascending numeric sort, modelling `indices.sort((a, b) => a - b)`. -/
def sortInts : List Int → List Int
  | [] => []
  | x :: xs => insertSortedInt x (sortInts xs)

/-- JavaScript `map.get(k)` over an insertion-ordered association list
(group names, like all strings here, are lists of characters). -/
def mapGet {α : Type} (l : List (Str × α)) (k : Str) : Option α :=
  (l.find? (fun p => p.1 = k)).map (fun p => p.2)

/-- JavaScript `map.has(k)` over an insertion-ordered association list. -/
def mapHas {α : Type} (l : List (Str × α)) (k : Str) : Bool :=
  (l.find? (fun p => p.1 = k)).isSome

/-- JavaScript `map.set(k, v)`: replace in place if the key is present,
otherwise append at the end of the iteration order. -/
def mapSet {α : Type} (l : List (Str × α)) (k : Str) (v : α) : List (Str × α) :=
  if l.any (fun p => p.1 = k) then
    l.map (fun p => if p.1 = k then (k, v) else p)
  else
    l ++ [(k, v)]

/-- JavaScript `\d` (a decimal digit). -/
def isDigitChar (c : Char) : Bool := c.isDigit

/-- JavaScript `[_A-Za-z]` (first character of an identifier). -/
def isWordStart (c : Char) : Bool := c = '_' || c.isAlpha

/-- JavaScript `\w` (`[0-9A-Za-z_]`). -/
def isWordChar (c : Char) : Bool := c.isAlphanum || c = '_'

/-! ## State and the `Character` node (claim C10)

`State` as in `state.ts` (the `part_004` version): an immutable subject
string, a cursor and a direction (`1` or `-1`).  `peek` reads through
`substring`, which swaps its arguments in right-to-left mode. -/

structure CState where
  str : Str
  index : Int
  direction : Int
deriving DecidableEq

namespace CState

/-- `State.peek(length)`: `str.substring(index, index + length * direction)`. -/
def peek (st : CState) (length : Int) : Str :=
  jsSubstring st.str st.index (st.index + length * st.direction)

/-- `State.advance(count)`. -/
def advance (st : CState) (count : Int) : CState :=
  { st with index := st.index + count * st.direction }

/-- `State.backtrack(count)`. -/
def backtrackBy (st : CState) (count : Int) : CState :=
  { st with index := st.index - count * st.direction }

/-- `State.endOfString`. -/
def endOfString (st : CState) : Bool :=
  if st.direction = 1 then st.index ≥ (st.str.length : Int) else st.index ≤ 0

end CState

/-- The `Character` expression node: a predicate over the peeked (single
character) string, plus the `ignoreCase` flag. -/
structure CharacterExpr where
  filter : Str → Bool
  ignoreCase : Bool

namespace CharacterExpr

/-- `Character.testFilter`: under `ignoreCase` the filter is tested on both
case folds of the peeked character. -/
def testFilter (e : CharacterExpr) (character : Str) : Bool :=
  if e.ignoreCase then
    e.filter (character.map Char.toLower) || e.filter (character.map Char.toUpper)
  else
    e.filter character

/-- `Character.match`: if not at the end of the string and the filter
accepts the peeked character, advance by one and succeed. -/
def matchFn (e : CharacterExpr) (st : CState) : Option Unit × CState :=
  if !st.endOfString && e.testFilter (st.peek 1) then
    (some (), st.advance 1)
  else
    (none, st)

end CharacterExpr

/-! ## The `Repetition` node (claim C5)

The repeated atom is abstract: any state type `σ` with a cursor, a `match`
and a `backtrack` operation (both return the updated state explicitly).
The mutual recursion `matchInternal`/`backtrackInternal` is made total with
fuel; `none` means the fuel ran out, `some none` is genuine failure. -/

structure RepAtom (σ τ : Type) where
  index : σ → Int
  matchFn : σ → Option τ × σ
  backtrackFn : σ → τ → Option τ × σ

namespace Repetition

mutual

/-- `Repetition.matchInternal` from `expression.ts` (final version): greedy
mode iterates up to `mx` repetitions, returns early once `mn` is reached and
an iteration fails, and terminates early when an iteration succeeds without
advancing the cursor (the zero-progress guard). -/
def matchInternal {σ τ : Type} (A : RepAtom σ τ) (mn mx : Nat) (lazy : Bool) :
    Nat → σ → List τ → Option (Option (List τ × σ))
  | 0, _, _ => none
  | Nat.succ fuel, st, tokens =>
    if lazy then
      if tokens.length < mn then
        match A.matchFn st with
        | (some tok, st2) => matchInternal A mn mx lazy fuel st2 (tokens ++ [tok])
        | (none, st2) => backtrackInternal A mn mx lazy fuel st2 tokens
      else some (some (tokens, st))
    else
      if tokens.length < mx then
        match A.matchFn st with
        | (some tok, st2) =>
          if A.index st2 = A.index st ∧ mn ≤ tokens.length + 1 then
            some (some (tokens ++ [tok], st2))
          else
            matchInternal A mn mx lazy fuel st2 (tokens ++ [tok])
        | (none, st2) =>
          if mn ≤ tokens.length then
            some (some (tokens, st2))
          else
            backtrackInternal A mn mx lazy fuel st2 tokens
      else some (some (tokens, st))

/-- `Repetition.backtrackInternal`: pop the latest iteration, backtrack it,
and re-extend; in greedy mode dropping to `mn` or more repetitions is
accepted as a success. -/
def backtrackInternal {σ τ : Type} (A : RepAtom σ τ) (mn mx : Nat) (lazy : Bool) :
    Nat → σ → List τ → Option (Option (List τ × σ))
  | 0, _, _ => none
  | Nat.succ fuel, st, tokens =>
    match tokens.getLast? with
    | none => some none
    | some tok =>
      let rest := tokens.dropLast
      match A.backtrackFn st tok with
      | (some tok2, st2) => matchInternal A mn mx lazy fuel st2 (rest ++ [tok2])
      | (none, st2) =>
        if lazy = false ∧ mn ≤ rest.length then
          some (some (rest, st2))
        else
          backtrackInternal A mn mx lazy fuel st2 rest

end

/-- `Repetition.match`: start with no collected iterations. -/
def matchFn {σ τ : Type} (A : RepAtom σ τ) (mn mx : Nat) (lazy : Bool)
    (fuel : Nat) (st : σ) : Option (Option (List τ × σ)) :=
  matchInternal A mn mx lazy fuel st []

end Repetition

/-! ## The `Conditional` node (claim C9)

The two branches and the anchor condition are abstract state-passing
operations; `condIsGroup` selects between the capture-presence condition
and the anchor condition, as in `Conditional.match`. -/

structure CondModel (σ τ τa : Type) where
  leftMatch : σ → Option τ × σ
  leftBacktrack : σ → τ → Option τ × σ
  rightMatch : σ → Option τ × σ
  rightBacktrack : σ → τ → Option τ × σ
  anchorMatch : σ → Option τa × σ
  anchorDiscard : σ → τa → σ
  hasCapture : σ → Bool
  condIsGroup : Bool

/-- The token returned by `Conditional.match`: which side matched, the
side's token, and the anchor's token when the condition was an anchor. -/
structure CondToken (τ τa : Type) where
  side : Bool
  matchToken : τ
  anchorToken : Option τa

namespace Conditional

/-- `Conditional.finishMatch`: package a successful side token, or discard
the anchor token on failure. -/
def finishMatch {σ τ τa : Type} (M : CondModel σ τ τa) (st : σ) (side : Bool)
    (matchToken : Option τ) (anchorToken : Option τa) : Option (CondToken τ τa) × σ :=
  match matchToken with
  | some t => (some ⟨side, t, anchorToken⟩, st)
  | none =>
    match anchorToken with
    | some a => (none, M.anchorDiscard st a)
    | none => (none, st)

/-- `Conditional.match`: evaluate the condition (capture presence for a
group, otherwise the anchor), then match only the selected side. -/
def matchFn {σ τ τa : Type} (M : CondModel σ τ τa) (st : σ) : Option (CondToken τ τa) × σ :=
  let cres : Bool × Option τa × σ :=
    if M.condIsGroup then
      (M.hasCapture st, none, st)
    else
      ((M.anchorMatch st).1.isSome, (M.anchorMatch st).1, (M.anchorMatch st).2)
  let condition := cres.1
  let anchorToken := cres.2.1
  let st1 := cres.2.2
  let mt := if condition then M.leftMatch st1 else M.rightMatch st1
  finishMatch M mt.2 condition mt.1 anchorToken

/-- `Conditional.backtrack`: backtrack only the side recorded in the token. -/
def backtrackFn {σ τ τa : Type} (M : CondModel σ τ τa) (st : σ) (tk : CondToken τ τa) :
    Option (CondToken τ τa) × σ :=
  let mt := if tk.side then M.leftBacktrack st tk.matchToken else M.rightBacktrack st tk.matchToken
  finishMatch M mt.2 tk.side mt.1 tk.anchorToken

end Conditional

/-! ## The `BalancingGroup` node (claim C6)

Here the matcher state is concrete enough to hold capture stacks: group
identities are indices into a list of capture stacks (JS array push/pop at
the end, so the top of a stack is its last element). -/

structure CaptureValue where
  value : Str
  index : Int
deriving DecidableEq

structure BState where
  str : Str
  index : Int
  groups : List (List CaptureValue)
deriving DecidableEq

namespace BState

def getGroup (st : BState) (g : Nat) : List CaptureValue := st.groups.getD g []

def setGroup (st : BState) (g : Nat) (cs : List CaptureValue) : BState :=
  { st with groups := st.groups.set g cs }

/-- `State.hasCapture`. -/
def hasCapture (st : BState) (g : Nat) : Bool := (st.getGroup g).length > 0

/-- `State.pushCapture(group, startIndex, endIndex)`: the stored capture
value is `str.substring(startIndex, endIndex)` and its index is the smaller
boundary. -/
def pushCapture (st : BState) (g : Nat) (startIndex endIndex : Int) : BState :=
  st.setGroup g (st.getGroup g ++ [⟨jsSubstring st.str startIndex endIndex, min startIndex endIndex⟩])

/-- `State.repushCapture`. -/
def repushCapture (st : BState) (g : Nat) (c : CaptureValue) : BState :=
  st.setGroup g (st.getGroup g ++ [c])

/-- `State.popCapture`: returns the popped top of the stack (the source
asserts it exists with `pop()!`; an empty stack yields `none` here). -/
def popCapture (st : BState) (g : Nat) : Option CaptureValue × BState :=
  ((st.getGroup g).getLast?, st.setGroup g (st.getGroup g).dropLast)

end BState

/-- The token of `BalancingGroup.match`. -/
structure BalToken (τ : Type) where
  start : Int
  capture : CaptureValue
  token : τ
deriving DecidableEq

namespace BalancingGroup

/-- `BalancingGroup.balanceCapture`: pop the `popGroup` capture; when a
`pushGroup` is present, push onto it a capture spanning the middle two of
the four sorted boundaries. -/
def balanceCapture (popGroup : Nat) (pushGroup : Option Nat) (st : BState) (start : Int) :
    Option (CaptureValue × BState) :=
  match BState.popCapture st popGroup with
  | (none, _) => none
  | (some capture, st1) =>
    let st2 :=
      match pushGroup with
      | none => st1
      | some y =>
        let indices := sortInts
          [capture.index, capture.index + (capture.value.length : Int), start, st1.index]
        st1.pushCapture y (indices.getD 1 0) (indices.getD 2 0)
    some (capture, st2)

/-- `BalancingGroup.match`: fail if `popGroup` has no capture; otherwise
match the inner expression and, on success, balance the captures. -/
def matchFn {τ : Type} (A : RepAtom BState τ) (popGroup : Nat) (pushGroup : Option Nat)
    (st : BState) : Option (BalToken τ) × BState :=
  if !(st.hasCapture popGroup) then
    (none, st)
  else
    let start := st.index
    match A.matchFn st with
    | (some tok, st1) =>
      match balanceCapture popGroup pushGroup st1 start with
      | some (capture, st2) => (some ⟨start, capture, tok⟩, st2)
      | none => (none, st1)
    | (none, st1) => (none, st1)

end BalancingGroup

/-! ## The expression tree and `invert` (claim C4)

A syntactic mirror of the expression node classes, with opaque payloads
(character filters, group identities, anchor conditions) replaced by tags.
In the source `invert()` mutates a node in place; here it returns the new
tree.  `Sequence.invert` does `atoms.reverse()` followed by inverting each
atom, which equals inverting each atom and reversing. -/

inductive Expr where
  | sequence (atoms : List Expr)
  | repetition (atom : Expr) (mn mx : Nat) (lazy : Bool)
  | alternation (left right : Expr)
  | character (id : Nat)
  | group (atom : Expr) (g : Nat)
  | balancingGroup (atom : Expr) (popG : Nat) (pushG : Option Nat)
  | reference (g : Nat)
  | anchor (left : Option Expr) (right : Option Expr) (condId : Nat)
  | atomic (e : Expr)
  | proxy (e : Expr) (inverted : Bool)
  | conditional (left right : Expr) (cond : Sum Nat Expr) (isImplicitLookahead : Bool)

mutual

/-- The `invert()` method of each node class.  `Anchor.invert` does
nothing; `Proxy.invert` only toggles its deferred-inversion flag;
`Conditional.invert` additionally calls `invertAnchor` on its condition
when the condition is an implicit lookahead. -/
def Expr.invert : Expr → Expr
  | Expr.sequence atoms =>
    Expr.sequence ((atoms.attach.map (fun a => match a with | ⟨x, _⟩ => Expr.invert x)).reverse)
  | Expr.repetition a mn mx l => Expr.repetition (Expr.invert a) mn mx l
  | Expr.alternation l r => Expr.alternation (Expr.invert l) (Expr.invert r)
  | Expr.character i => Expr.character i
  | Expr.group a g => Expr.group (Expr.invert a) g
  | Expr.balancingGroup a p q => Expr.balancingGroup (Expr.invert a) p q
  | Expr.reference g => Expr.reference g
  | Expr.anchor l r c => Expr.anchor l r c
  | Expr.atomic e => Expr.atomic (Expr.invert e)
  | Expr.proxy e inv => Expr.proxy e (!inv)
  | Expr.conditional l r cond impl =>
    Expr.conditional (Expr.invert l) (Expr.invert r)
      (match cond with
       | Sum.inl g => Sum.inl g
       | Sum.inr a => if impl then Sum.inr (Expr.invertAnchor a) else Sum.inr a) impl
termination_by e => sizeOf e
decreasing_by
  all_goals simp_wf
  all_goals first
    | (rename_i hmem; have h := List.sizeOf_lt_of_mem hmem; omega)
    | omega

/-- `Anchor.invertAnchor`: swap the `left` and `right` inner expressions
and invert each.  On any other node it is the identity (the source only
calls it on anchors). -/
def Expr.invertAnchor : Expr → Expr
  | Expr.anchor l r c =>
    Expr.anchor
      (match r with | some e => some (Expr.invert e) | none => none)
      (match l with | some e => some (Expr.invert e) | none => none)
      c
  | e => e
termination_by e => sizeOf e
decreasing_by
  all_goals simp_wf
  all_goals omega

end

/-- The `Regex` constructor applies `invert()` to the parsed tree exactly
once, when `rightToLeft` is requested. -/
def rtlAst (rightToLeft : Bool) (ast : Expr) : Expr :=
  if rightToLeft then ast.invert else ast

/-! ## `Regex.escape` / `Regex.unescape` (claim C3)

Each `.replace(/…/g, …)` pass of the source is modelled as a left-to-right
scan over the string.  The escape passes have single-character patterns and
are therefore per-character maps; the unescape passes have patterns that
start with a backslash and are modelled by structural scans.  Passes that
can throw (`\c`, `\x`, `\u`, invalid `\letter`) return `Except`. -/

/-- One `replace(/c/g, r)` pass with a single-character pattern. -/
def replaceCharAll (c : Char) (r : Str) (s : Str) : Str :=
  s.flatMap (fun x => if x = c then r else [x])

/-- The character class `[ #$()*+.?\[\]^{|]` of the final escape pass. -/
def escapeClassChars : Str :=
  [' ', '#', dollarChar, '(', ')', '*', '+', '.', '?', '[', ']', '^', lbraceChar, '|']

/-- The final escape pass: prefix every class character with a backslash. -/
def escapeClassPass (s : Str) : Str :=
  s.flatMap (fun x => if x ∈ escapeClassChars then [bslashChar, x] else [x])

/-- `Regex.escape`: the five `replace` passes of the source. -/
def Regex.escape (s : Str) : Str :=
  escapeClassPass
    (replaceCharAll '\r' [bslashChar, 'r']
      (replaceCharAll (Char.ofNat 12) [bslashChar, 'f']
        (replaceCharAll '\n' [bslashChar, 'n']
          (replaceCharAll '\t' [bslashChar, 't'] s))))

/-- One `replace(/\\X/g, r)` pass with a two-character literal pattern. -/
def replace2All (a b r : Char) : Str → Str
  | [] => []
  | [x] => [x]
  | x :: y :: rest =>
    if x = a ∧ y = b then r :: replace2All a b r rest
    else x :: replace2All a b r (y :: rest)

/-- An octal digit. -/
def isOctalChar (c : Char) : Bool := '0' ≤ c ∧ c ≤ '7'

/-- Numeric value of a list of octal digits (`parseInt(n, 8)`). -/
def octVal (ds : Str) : Nat := ds.foldl (fun n c => n * 8 + (c.toNat - 48)) 0

/-- The `\NNN` pass: a backslash followed by one to three (greedy) octal
digits becomes the character with that code modulo 0x100; otherwise the
scan advances by one character. -/
def passOctal : Str → Str
  | [] => []
  | [c] => [c]
  | [c, d1] =>
    if c = bslashChar ∧ isOctalChar d1 then [Char.ofNat (octVal [d1] % 256)]
    else c :: passOctal [d1]
  | [c, d1, d2] =>
    if c = bslashChar ∧ isOctalChar d1 then
      if isOctalChar d2 then [Char.ofNat (octVal [d1, d2] % 256)]
      else Char.ofNat (octVal [d1] % 256) :: passOctal [d2]
    else c :: passOctal [d1, d2]
  | c :: d1 :: d2 :: d3 :: rest =>
    if c = bslashChar ∧ isOctalChar d1 then
      if isOctalChar d2 then
        if isOctalChar d3 then Char.ofNat (octVal [d1, d2, d3] % 256) :: passOctal rest
        else Char.ofNat (octVal [d1, d2] % 256) :: passOctal (d3 :: rest)
      else Char.ofNat (octVal [d1] % 256) :: passOctal (d2 :: d3 :: rest)
    else c :: passOctal (d1 :: d2 :: d3 :: rest)

/-- The class `[@-_a-z]` of the control-letter pass. -/
def isControlLetter (c : Char) : Bool :=
  (Char.ofNat 64 ≤ c ∧ c ≤ '_') || ('a' ≤ c ∧ c ≤ 'z')

/-- The `\cX` pass: `X` is case-folded to upper case and its code xored
with 0x40 (here: minus 64, as in the source).  A `\c` not followed by a
class character throws. -/
def passControl : Str → Except String Str
  | [] => Except.ok []
  | [c] => Except.ok [c]
  | c :: k :: rest =>
    if c = bslashChar ∧ k = 'c' then
      match rest with
      | c2 :: rest2 =>
        if isControlLetter c2 then
          (passControl rest2).map (fun t => Char.ofNat (c2.toUpper.toNat - 64) :: t)
        else Except.error "Expected control character."
      | [] => Except.error "Expected control character."
    else (passControl (k :: rest)).map (fun t => c :: t)

/-- A hexadecimal digit. -/
def isHexChar (c : Char) : Bool := c.isDigit || ('A' ≤ c ∧ c ≤ 'F') || ('a' ≤ c ∧ c ≤ 'f')

/-- Numeric value of a hexadecimal digit. -/
def hexDigitVal (c : Char) : Nat :=
  if c.isDigit then c.toNat - 48
  else if 'A' ≤ c ∧ c ≤ 'F' then c.toNat - 55
  else c.toNat - 87

/-- Numeric value of a list of hexadecimal digits (`parseInt(n, 16)`). -/
def hexVal (ds : Str) : Nat := ds.foldl (fun n c => n * 16 + hexDigitVal c) 0

/-- The `\xHH` pass: a `\x` must be followed by exactly two hexadecimal
digits, otherwise the pass throws. -/
def passHex2 : Str → Except String Str
  | [] => Except.ok []
  | [c] => Except.ok [c]
  | c :: k :: rest =>
    if c = bslashChar ∧ k = 'x' then
      match rest with
      | h1 :: h2 :: rest2 =>
        if isHexChar h1 ∧ isHexChar h2 then
          (passHex2 rest2).map (fun t => Char.ofNat (hexVal [h1, h2] % 1114112) :: t)
        else Except.error "Expected 2-letter hex code."
      | _ => Except.error "Expected 2-letter hex code."
    else (passHex2 (k :: rest)).map (fun t => c :: t)

/-- The `\uHHHH` pass: a `\u` must be followed by exactly four hexadecimal
digits, otherwise the pass throws. -/
def passHex4 : Str → Except String Str
  | [] => Except.ok []
  | [c] => Except.ok [c]
  | c :: k :: rest =>
    if c = bslashChar ∧ k = 'u' then
      match rest with
      | h1 :: h2 :: h3 :: h4 :: rest2 =>
        if isHexChar h1 ∧ isHexChar h2 ∧ isHexChar h3 ∧ isHexChar h4 then
          (passHex4 rest2).map (fun t => Char.ofNat (hexVal [h1, h2, h3, h4] % 1114112) :: t)
        else Except.error "Expected 4-letter hex code."
      | _ => Except.error "Expected 4-letter hex code."
    else (passHex4 (k :: rest)).map (fun t => c :: t)

/-- The class `[89A-Za-z]` of the invalid-escape pass. -/
def isInvalidEscapeChar (c : Char) : Bool :=
  c = '8' || c = '9' || ('A' ≤ c ∧ c ≤ 'Z') || ('a' ≤ c ∧ c ≤ 'z')

/-- The `\[89A-Za-z]` pass: any remaining alphanumeric escape throws. -/
def passInvalid : Str → Except String Str
  | [] => Except.ok []
  | [c] => Except.ok [c]
  | c :: k :: rest =>
    if c = bslashChar ∧ isInvalidEscapeChar k then
      Except.error "Invalid escape code."
    else (passInvalid (k :: rest)).map (fun t => c :: t)

/-- The final `\\([^]?)` pass: a backslash is dropped, keeping the
following character if any. -/
def passFinal : Str → Str
  | [] => []
  | [c] => if c = bslashChar then [] else [c]
  | c :: k :: rest =>
    if c = bslashChar then k :: passFinal rest
    else c :: passFinal (k :: rest)

/-- `Regex.unescape`: the full pipeline of `replace` passes of the source
(`\t \n \f \r \a \b \e \f \v`, octal, `\c`, `\x`, `\u`, invalid escapes,
and the final backslash-dropping pass), chained through `Except`. -/
def Regex.unescape (s : Str) : Except String Str :=
  ((((passControl
      (passOctal
        (replace2All bslashChar 'v' (Char.ofNat 11)
          (replace2All bslashChar 'f' (Char.ofNat 12)
            (replace2All bslashChar 'e' (Char.ofNat 27)
              (replace2All bslashChar 'b' (Char.ofNat 8)
                (replace2All bslashChar 'a' (Char.ofNat 7)
                  (replace2All bslashChar 'r' '\r'
                    (replace2All bslashChar 'f' (Char.ofNat 12)
                      (replace2All bslashChar 'n' '\n'
                        (replace2All bslashChar 't' '\t' s))))))))))).bind
      passHex2).bind passHex4).bind passInvalid).map passFinal

/-! ## Result objects: `Capture`, `Group`, `Match` (claims C1, C2, C8)

`result.ts`.  The group map is an insertion-ordered association list (a JS
`Map` keyed by group name).  The collapsed group list is computed in the
`Match` constructor exactly as in the source: decimal-named keys sorted
ascending are interleaved with the remaining keys by walking `i = 0, 1, …`,
and once one queue empties the rest of both queues is appended. -/

structure Capture where
  index : Int
  value : Str
deriving DecidableEq

namespace Capture

def length (c : Capture) : Nat := c.value.length

end Capture

/-- The `Group` result class (named `GroupR` because `Group` is taken by
Mathlib): its derived fields report the last (top) capture. -/
structure GroupR where
  name : Str
  captures : List Capture
deriving DecidableEq

namespace GroupR

def success (g : GroupR) : Bool := !g.captures.isEmpty

def value (g : GroupR) : Str := (g.captures.getLast?).elim [] Capture.value

def index (g : GroupR) : Int := (g.captures.getLast?).elim 0 Capture.index

def length (g : GroupR) : Nat := (g.captures.getLast?).elim 0 Capture.length

end GroupR

/-- `/^\d+$/` on a group name. -/
def isDecimalName (s : Str) : Bool := !s.isEmpty && s.all Char.isDigit

/-- `Number(s)` for a decimal-digit string. -/
def natVal (s : Str) : Nat := s.foldl (fun n c => n * 10 + (c.toNat - 48)) 0

/-- `i.toString()` for a JS number holding a natural number. -/
def natToStr (n : Nat) : Str := Nat.toDigits 10 n

/-- Stable insertion into a list sorted by `natVal` (helper for
`sortByNat`; an element is inserted before strictly greater keys only, so
the relative order of equal keys is preserved as in the ES2019 stable
`Array.prototype.sort`). -/
def insertByNat (x : Str) : List Str → List Str
  | [] => [x]
  | y :: ys => if natVal x ≤ natVal y then x :: y :: ys else y :: insertByNat x ys

/-- `keys.sort((a, b) => Number(a) - Number(b))` (stable). -/
def sortByNat : List Str → List Str
  | [] => []
  | x :: xs => insertByNat x (sortByNat xs)

/-- The interleaving loop of the `Match` constructor: while both queues are
non-empty, emit the head of the decimal queue when it equals the running
index `i`, otherwise the head of the named queue; then append the rest. -/
def collapsedWalk : Nat → List Str → List Str → List Str
  | _, [], ms => ms
  | _, ns, [] => ns
  | i, n :: ntail, m :: mtail =>
    if n = natToStr i then n :: collapsedWalk (i + 1) ntail (m :: mtail)
    else m :: collapsedWalk (i + 1) (n :: ntail) mtail
termination_by _ ns ms => ns.length + ms.length

/-- The collapsed group list computed from the map keys. -/
def mkCollapsed (keys : List Str) : List Str :=
  collapsedWalk 0 (sortByNat (keys.filter isDecimalName))
    (keys.filter (fun k => !isDecimalName k))

/-- The `Match` result class (named `MatchR` to avoid clashing with the
`match` keyword machinery). -/
structure MatchR where
  groups : List (Str × GroupR)
  captures : List Capture
  success : Bool
  index : Int
  length : Nat
  value : Str
  collapsedGroupList : List Str
  input : Str
  nextIndex : Int
deriving DecidableEq

namespace MatchR

/-- The `Match` constructor: add the whole-match group `"0"` to the map,
then derive the success fields and the collapsed group list from the
optional whole-match capture. -/
def make (groups0 : List (Str × GroupR)) (capture : Option Capture) (input : Str)
    (nextIndex : Int) : MatchR :=
  let captures := match capture with | some c => [c] | none => []
  let groups := mapSet groups0 [zeroChar] ⟨[zeroChar], captures⟩
  match capture with
  | some c =>
    { groups := groups, captures := captures, success := true, index := c.index,
      length := c.value.length, value := c.value,
      collapsedGroupList := mkCollapsed (groups.map (fun p => p.1)),
      input := input, nextIndex := nextIndex }
  | none =>
    { groups := groups, captures := captures, success := false, index := 0,
      length := 0, value := [], collapsedGroupList := [],
      input := input, nextIndex := nextIndex }

/-- The engine-wide `Match.empty` sentinel (`new Match()`). -/
def empty : MatchR := make [] none [] 0

end MatchR

/-- `scanner.peek(/(\d+)/)`: the maximal digit run at the position. -/
def digitsRun (l : Str) : Str := l.takeWhile isDigitChar

/-- `scanner.peek(/\{([_A-Za-z]\w*|\d+)\}/)`: an identifier or digit run in
braces; returns the contents of the capture group. -/
def bracePeek (l : Str) : Option Str :=
  match l with
  | [] => none
  | c :: rest =>
    if c = lbraceChar then
      match rest with
      | [] => none
      | d :: _ =>
        if isWordStart d then
          let w := rest.takeWhile isWordChar
          if (rest.drop w.length).head? = some rbraceChar then some w else none
        else if isDigitChar d then
          let w := rest.takeWhile isDigitChar
          if (rest.drop w.length).head? = some rbraceChar then some w else none
        else none
    else none

/-- One `$`-escape of `Match.result`, applied to the text after the
consumed `$`.  Returns the replacement piece and the number of characters
consumed after the `$`.  The `Internal error` branch mirrors the
re-consume check of the source (`scanner.consume(scanner.token)`). -/
def dollarBranch (m : MatchR) (l : Str) : Except String (Str × Nat) :=
  match l with
  | [] => Except.ok ([dollarChar], 0)
  | c :: rest =>
    if c = dollarChar then Except.ok ([dollarChar], 1)
    else
      let ds := digitsRun (c :: rest)
      if ds.isEmpty = false then
        if mapHas m.groups ds then
          if (c :: rest).take ds.length = ds then
            Except.ok ((mapGet m.groups ds).elim [] GroupR.value, ds.length)
          else Except.error "Internal error RECONSUME_FAILED."
        else Except.ok ([dollarChar], 0)
      else
        match bracePeek (c :: rest) with
        | some inner =>
          if mapHas m.groups inner then
            let token := lbraceChar :: (inner ++ [rbraceChar])
            if (c :: rest).take token.length = token then
              Except.ok ((mapGet m.groups inner).elim [] GroupR.value, token.length)
            else Except.error "Internal error RECONSUME_FAILED."
          else Except.ok ([dollarChar], 0)
        | none =>
          if c = '&' then Except.ok (m.value, 1)
          else if c = '+' then
            Except.ok ((mapGet m.groups (m.collapsedGroupList.getLastD [])).elim [] GroupR.value, 1)
          else if c = '_' then Except.ok (m.input, 1)
          else if c = bquoteChar then Except.ok (jsSubstr m.input (some 0) (some m.index), 1)
          else if c = squoteChar then
            Except.ok (jsSubstr m.input (some (m.index + (m.length : Int))) none, 1)
          else Except.ok ([dollarChar], 0)

/-- The scan loop of `Match.result`: literal text is copied until a `$`,
and each `$`-escape is expanded by `dollarBranch`. -/
def resultLoop (m : MatchR) : Str → Except String Str
  | [] => Except.ok []
  | c :: rest =>
    if c = dollarChar then
      match dollarBranch m rest with
      | Except.error e => Except.error e
      | Except.ok (piece, n) =>
        match resultLoop m (rest.drop n) with
        | Except.error e => Except.error e
        | Except.ok t => Except.ok (piece ++ t)
    else
      match resultLoop m rest with
      | Except.error e => Except.error e
      | Except.ok t => Except.ok (c :: t)
termination_by l => l.length
decreasing_by
  all_goals simp_wf
  all_goals omega

/-- `Match.result(replacement)`: throws on a failed match, otherwise
evaluates the replacement template. -/
def MatchR.result (m : MatchR) (replacement : Str) : Except String Str :=
  if !m.success then Except.error "Cannot perform a replacement with a failed match."
  else resultLoop m replacement

/-! ## The engine loop (claims C7, C8)

The state of `part_007`'s `Regex` methods.  The root expression is
abstract (`Ast`).  The bounded `State` variant used by `part_007`
(`State.create` with `leftIndex`/`rightIndex`) is not part of the sources;
its window fields are modelled from the spec. -/

structure EState where
  str : Str
  index : Int
  direction : Int
  leftBound : Int
  rightBound : Int
  previousMatchEnd : Int
  groups : List (Str × List Capture)

/-- A root expression: `match` on the state, returning the updated state. -/
abbrev Ast := EState → Option Unit × EState

namespace EState

/-- `State.advance(count)`. -/
def advance (st : EState) (count : Int) : EState :=
  { st with index := st.index + count * st.direction }

/-- Modelled from the spec: `State.outOfBounds` of the missing bounded
`State` (part_007's 6-argument `State.create`), with the matching window
`[leftBound, rightBound]` of spec §3; the cursor is out of bounds once it
passes the window bound in the current direction. -/
def outOfBounds (st : EState) : Bool :=
  if st.direction = 1 then st.index > st.rightBound else st.index < st.leftBound

/-- `finishMatch` of the state accessor: record the match end and clear all
capture stacks. -/
def finishMatch (st : EState) : EState :=
  { st with previousMatchEnd := st.index, groups := st.groups.map (fun p => (p.1, [])) }

end EState

namespace Regex

/-- `Regex.getMatch`: scan for a match from the current cursor, advancing
by one position in the current direction after each failed attempt, until
the cursor passes the window bound.  Fuel-indexed: `none` means the fuel
ran out, `some none` is "no match". -/
def getMatchF (ast : Ast) : Nat → EState → Option (Option MatchR × EState)
  | 0, _ => none
  | Nat.succ fuel, st =>
    if st.outOfBounds then some (none, st)
    else
      let startIndex := st.index
      match ast st with
      | (some _, st1) =>
        let groups := st1.groups.map (fun p => (p.1, GroupR.mk p.1 p.2))
        let capture : Capture := ⟨min startIndex st1.index, jsSubstring st1.str startIndex st1.index⟩
        let st2 := st1.finishMatch
        let nextIndex := st2.index + (if capture.value.length = 0 then st2.direction else 0)
        some (some (MatchR.make groups (some capture) st2.str nextIndex), st2)
      | (none, st1) => getMatchF ast fuel (st1.advance 1)

/-- `Regex.matches`: repeatedly call `getMatch`; after an empty match,
advance by one position to avoid an infinite loop. -/
def matchesF (ast : Ast) : Nat → EState → Option (List MatchR × EState)
  | 0, _ => none
  | Nat.succ fuel, st =>
    match getMatchF ast (Nat.succ fuel) st with
    | none => none
    | some (none, st1) => some ([], st1)
    | some (some m, st1) =>
      let st2 := if m.length = 0 then st1.advance 1 else st1
      match matchesF ast fuel st2 with
      | none => none
      | some (ms, stf) => some (m :: ms, stf)

/-- `Regex.createState`: the matching window is the whole input unless both
`start` and `length` are given; the scan starts at the window end that
matches the direction (or at `start` if only `start` is given). -/
def createState (input : Str) (start : Option Int) (length : Option Int) (rtl : Bool)
    (groupNames : List Str) : EState :=
  let leftIndex : Int := 0
  let rightIndex : Int := input.length
  let bounds :=
    match start, length with
    | some s, some l => (s, s + l, if rtl then s + l else s)
    | some s, none => (leftIndex, rightIndex, s)
    | none, _ => (leftIndex, rightIndex, if rtl then rightIndex else leftIndex)
  { str := input, index := bounds.2.2, direction := if rtl then -1 else 1,
    leftBound := bounds.1, rightBound := bounds.2.1,
    previousMatchEnd := bounds.2.2,
    groups := groupNames.map (fun n => (n, [])) }

/-- `Regex.match`: a failed search returns the `Match.empty` sentinel. -/
def matchF (ast : Ast) (fuel : Nat) (input : Str) (start : Option Int) (length : Option Int)
    (rtl : Bool) (groupNames : List Str) : Option MatchR :=
  (getMatchF ast fuel (createState input start length rtl groupNames)).map
    (fun r => r.1.getD MatchR.empty)

/-- `Regex.matches` at the top level. -/
def matchesTop (ast : Ast) (fuel : Nat) (input : Str) (start : Option Int) (rtl : Bool)
    (groupNames : List Str) : Option (List MatchR) :=
  (matchesF ast fuel (createState input start none rtl groupNames)).map (fun r => r.1)

/-- The replacement-splicing loop of `Regex.replace`: alternate the text
between matches with each match's evaluated replacement. -/
def replaceGo (input : Str) (replacement : Str) : List MatchR → Int → Except String Str
  | [], idx => Except.ok (jsSubstr input (some idx) none)
  | m :: rest, idx =>
    match m.result replacement with
    | Except.error e => Except.error e
    | Except.ok r =>
      match replaceGo input replacement rest (m.index + (m.length : Int)) with
      | Except.error e => Except.error e
      | Except.ok t => Except.ok (jsSubstring input idx m.index ++ r ++ t)

/-- `Regex.replace` with a template replacement: guard the count, collect
at most `count` matches, put them in left-to-right order, and splice. -/
def replace (ast : Ast) (fuel : Nat) (input : Str) (replacement : Str) (count : Int)
    (start : Option Int) (rtl : Bool) (groupNames : List Str) :
    Option (Except String Str) :=
  if count < -1 then some (Except.error "Count cannot be less than -1.")
  else
    match matchesTop ast fuel input start rtl groupNames with
    | none => none
    | some ms =>
      let ms1 := if 0 ≤ count then ms.take count.toNat else ms
      let ms2 := if rtl then ms1.reverse else ms1
      some (replaceGo input replacement ms2 0)

/-- The cutting loop of `Regex.split`. -/
def splitGo (input : Str) : List MatchR → Int → List Str
  | [], idx => [jsSubstr input (some idx) none]
  | m :: rest, idx => jsSubstring input idx m.index :: splitGo input rest (m.index + (m.length : Int))

/-- `Regex.split`: guard the count, cut at the first `count - 1` matches. -/
def split (ast : Ast) (fuel : Nat) (input : Str) (count : Int) (start : Option Int)
    (rtl : Bool) (groupNames : List Str) : Option (Except String (List Str)) :=
  if count < 0 then some (Except.error "Count cannot be less than 0.")
  else
    match matchesTop ast fuel input start rtl groupNames with
    | none => none
    | some ms =>
      let ms1 := if 0 < count then ms.take (count - 1).toNat else ms
      let ms2 := if rtl then ms1.reverse else ms1
      some (Except.ok (splitGo input ms2 0))

end Regex

/-! ## Auxiliary definitions used by the proofs -/

/-- The per-character effect of the whole `Regex.escape` pipeline. -/
def escChar (c : Char) : Str :=
  if c = '\t' then [bslashChar, 't']
  else if c = '\n' then [bslashChar, 'n']
  else if c = Char.ofNat 12 then [bslashChar, 'f']
  else if c = '\r' then [bslashChar, 'r']
  else if c ∈ escapeClassChars then [bslashChar, c]
  else [c]

/-- The per-character form left after the nine two-character unescape
passes have consumed the control escapes: only class escapes remain. -/
def escCharMid (c : Char) : Str :=
  if c ∈ escapeClassChars then [bslashChar, c] else [c]

/-- A block of the escaped string: either a single non-backslash character
or a backslash followed by a non-backslash character. -/
def GoodBlock (l : Str) : Prop :=
  (∃ u, u ≠ bslashChar ∧ l = [u]) ∨ (∃ v, v ≠ bslashChar ∧ l = [bslashChar, v])

/-- A repetition atom over integer states that always matches without
advancing (the behaviour of a nullable inner pattern such as `a*` on an
exhausted input). -/
def atomZW : RepAtom Int Unit :=
  ⟨fun s => s, fun s => (some (), s), fun s _ => (none, s)⟩

/-- A balancing-group inner atom that consumes one position. -/
def balAtom : RepAtom BState Unit :=
  ⟨fun st => st.index, fun st => (some (), { st with index := st.index + 1 }), fun st _ => (none, st)⟩

/-- A concrete state for the balancing-group evaluation: group 0 holds one
capture of `"a"` at index 0, the cursor is at 1. -/
def balState : BState :=
  ⟨['a', 'b'], 1, [[⟨['a'], 0⟩], []]⟩

/-- A concrete conditional model over natural-number states whose group
condition holds and whose left side fails to backtrack. -/
def condModel0 : CondModel Nat Unit Unit :=
  { leftMatch := fun s => (some (), s + 1)
    leftBacktrack := fun s _ => (none, s)
    rightMatch := fun s => (some (), s + 2)
    rightBacktrack := fun s _ => (some (), s + 3)
    anchorMatch := fun s => (some (), s)
    anchorDiscard := fun s _ => s
    hasCapture := fun _ => true
    condIsGroup := true }

/-- A root expression that never matches. -/
def astFail : Ast := fun st => (none, st)

/-- The contract of a compiled expression (expressions restore the state
on failure and never move the cursor against the current direction):
failure returns the state unchanged; success preserves the direction, the
subject string and the window, moves the cursor only along the current
direction, and keeps an in-string cursor inside the string. -/
def AstOk (ast : Ast) : Prop :=
  (∀ st st1, ast st = (none, st1) → st1 = st) ∧
  (∀ st u st1, ast st = (some u, st1) →
    st1.direction = st.direction ∧ st1.str = st.str ∧
    st1.leftBound = st.leftBound ∧ st1.rightBound = st.rightBound ∧
    0 ≤ (st1.index - st.index) * st.direction ∧
    (0 ≤ st.index → st.index ≤ (st.str.length : Int) →
      0 ≤ st1.index ∧ st1.index ≤ (st.str.length : Int)))

/-- A concrete match for the `$+` evaluation: group 1 captured `"a"`,
group 2 captured nothing, the whole match is `"ab"`. -/
def c1m : MatchR :=
  MatchR.make [(['1'], ⟨['1'], [⟨0, ['a']⟩]⟩), (['2'], ⟨['2'], []⟩)]
    (some ⟨0, ['a', 'b']⟩) ['a', 'b'] 2

/-- A concrete match for the backreference evaluation: only group 1 is
defined (capturing `"a"`), the whole match is `"xy"`. -/
def c2m : MatchR :=
  MatchR.make [(['1'], ⟨['1'], [⟨0, ['a']⟩]⟩)] (some ⟨0, ['x', 'y']⟩) ['x', 'y'] 2

/-- A concrete character filter accepting exactly `"a"`. -/
def charA : CharacterExpr := ⟨fun s => s = ['a'], false⟩

/-- A concrete character-node state: `"ab"`, cursor 0, left-to-right. -/
def cst0 : CState := ⟨['a', 'b'], 0, 1⟩

/-! ## Theorems -/

/-- C10: `Character.match` is total and in-bounds: at the end of the string
in the current direction it fails leaving the state unchanged; otherwise it
tests the predicate on exactly one peeked character and on success moves
the cursor by exactly one position in the current direction, so a cursor in
`[0, input.length]` stays in `[0, input.length]`. -/
theorem c10_character_match (e : CharacterExpr) (st : CState)
    (hdir : st.direction = 1 ∨ st.direction = -1)
    (hlo : 0 ≤ st.index) (hhi : st.index ≤ (st.str.length : Int)) :
    (st.endOfString = true → e.matchFn st = (none, st)) ∧
    (st.endOfString = false →
      (st.peek 1).length = 1 ∧
      e.matchFn st =
        (if e.testFilter (st.peek 1) then (some (), st.advance 1) else (none, st))) ∧
    (0 ≤ (e.matchFn st).2.index ∧ (e.matchFn st).2.index ≤ (st.str.length : Int) ∧
      (e.matchFn st).2.str = st.str) := by
  refine ⟨fun h => ?_, fun h => ⟨?_, ?_⟩, ?_⟩
  · simp [CharacterExpr.matchFn, h]
  · rcases hdir with hd | hd
    · have h1 : st.index < (st.str.length : Int) := by
        simpa [CState.endOfString, hd] using h
      simp [CState.peek, jsSubstring, jsClamp, hd]
      omega
    · have h1 : 0 < st.index := by
        simpa [CState.endOfString, hd] using h
      simp [CState.peek, jsSubstring, jsClamp, hd]
      omega
  · by_cases hf : e.testFilter (st.peek 1)
    · simp [CharacterExpr.matchFn, h, hf]
    · simp [CharacterExpr.matchFn, h, hf]
  · by_cases hc : (!st.endOfString && e.testFilter (st.peek 1)) = true
    · have he : st.endOfString = false := by
        have h1 := ((Bool.and_eq_true _ _).mp hc).1
        simpa using h1
      rcases hdir with hd | hd
      · have h1 : st.index < (st.str.length : Int) := by
          simpa [CState.endOfString, hd] using he
        simp [CharacterExpr.matchFn, hc, CState.advance, hd]
        omega
      · have h1 : 0 < st.index := by
          simpa [CState.endOfString, hd] using he
        simp [CharacterExpr.matchFn, hc, CState.advance, hd]
        omega
    · simp only [CharacterExpr.matchFn, hc]
      simp
      exact ⟨hlo, hhi⟩

/-- Witness for C10 at a concrete node and state. -/
theorem c10_witness :
    (cst0.endOfString = true → charA.matchFn cst0 = (none, cst0)) ∧
    (cst0.endOfString = false →
      (cst0.peek 1).length = 1 ∧
      charA.matchFn cst0 =
        (if charA.testFilter (cst0.peek 1) then (some (), cst0.advance 1) else (none, cst0))) ∧
    (0 ≤ (charA.matchFn cst0).2.index ∧
      (charA.matchFn cst0).2.index ≤ (cst0.str.length : Int) ∧
      (charA.matchFn cst0).2.str = cst0.str) :=
  c10_character_match charA cst0 (Or.inl rfl) (by decide) (by decide)

/-- C5: in `Repetition.matchInternal` (greedy branch), when an iteration of
the atom matches without advancing the cursor and at least `min` iterations
have already been collected, the repetition stops iterating and succeeds
with the iterations collected so far (including the zero-progress one), so
`(a*)*`-like loops terminate. -/
theorem c5_repetition_zero_progress {σ τ : Type} (A : RepAtom σ τ) (mn mx : Nat)
    (st st2 : σ) (tok : τ) (tokens : List τ) (fuel : Nat)
    (hminmax : mn ≤ mx)
    (hroom : tokens.length < mx)
    (hmatch : A.matchFn st = (some tok, st2))
    (hzero : A.index st2 = A.index st)
    (hmin : mn ≤ tokens.length)
    (hfuel : 1 ≤ fuel) :
    Repetition.matchInternal A mn mx false fuel st tokens =
      some (some (tokens ++ [tok], st2)) := by
  obtain ⟨k, rfl⟩ : ∃ k, fuel = k + 1 := ⟨fuel - 1, by omega⟩
  simp only [Repetition.matchInternal, Bool.false_eq_true, if_false, if_pos hroom, hmatch]
  rw [if_pos ⟨hzero, by omega⟩]

/-- Witness for C5: a zero-width atom with `min = 0`, `max = 5` terminates
after one iteration with one unit of fuel. -/
theorem c5_witness :
    Repetition.matchInternal atomZW 0 5 false 1 (0 : Int) [] = some (some ([()], 0)) :=
  c5_repetition_zero_progress atomZW 0 5 0 0 () [] 1 (by decide) (by decide) rfl rfl
    (by decide) (by decide)

/-- C9: `Conditional.match` evaluates its condition once (capture presence
for a group condition, the anchor otherwise) and matches only the selected
side; `Conditional.backtrack` backtracks only the side recorded in the
token, fails when that side is exhausted, and never consults the other
side's operations. -/
theorem c9_conditional_sides {σ τ τa : Type} (M : CondModel σ τ τa) (st : σ)
    (tk : CondToken τ τa) :
    (M.condIsGroup = true → M.hasCapture st = true →
      Conditional.matchFn M st =
        Conditional.finishMatch M (M.leftMatch st).2 true (M.leftMatch st).1 none) ∧
    (M.condIsGroup = true → M.hasCapture st = false →
      Conditional.matchFn M st =
        Conditional.finishMatch M (M.rightMatch st).2 false (M.rightMatch st).1 none) ∧
    (M.condIsGroup = false → ∀ a st1, M.anchorMatch st = (some a, st1) →
      Conditional.matchFn M st =
        Conditional.finishMatch M (M.leftMatch st1).2 true (M.leftMatch st1).1 (some a)) ∧
    (M.condIsGroup = false → ∀ st1, M.anchorMatch st = (none, st1) →
      Conditional.matchFn M st =
        Conditional.finishMatch M (M.rightMatch st1).2 false (M.rightMatch st1).1 none) ∧
    (tk.side = true →
      Conditional.backtrackFn M st tk =
        Conditional.finishMatch M (M.leftBacktrack st tk.matchToken).2 true
          (M.leftBacktrack st tk.matchToken).1 tk.anchorToken) ∧
    (tk.side = true → (M.leftBacktrack st tk.matchToken).1 = none →
      (Conditional.backtrackFn M st tk).1 = none) ∧
    (tk.side = false → (M.rightBacktrack st tk.matchToken).1 = none →
      (Conditional.backtrackFn M st tk).1 = none) ∧
    (∀ (rm : σ → Option τ × σ) (rb : σ → τ → Option τ × σ), tk.side = true →
      Conditional.backtrackFn { M with rightMatch := rm, rightBacktrack := rb } st tk =
        Conditional.backtrackFn M st tk) := by
  refine ⟨?_, ?_, ?_, ?_, ?_, ?_, ?_, ?_⟩
  · intro hg hc
    simp [Conditional.matchFn, hg, hc]
  · intro hg hc
    simp [Conditional.matchFn, hg, hc]
  · intro hg a st1 ha
    simp [Conditional.matchFn, hg, ha]
  · intro hg st1 ha
    simp [Conditional.matchFn, hg, ha]
  · intro hs
    simp [Conditional.backtrackFn, hs]
  · intro hs hb
    simp [Conditional.backtrackFn, hs, hb, Conditional.finishMatch]
    cases tk.anchorToken <;> simp
  · intro hs hb
    simp [Conditional.backtrackFn, hs, hb, Conditional.finishMatch]
    cases tk.anchorToken <;> simp
  · intro rm rb hs
    simp [Conditional.backtrackFn, hs, Conditional.finishMatch]

/-- Witness for C9: the group condition holds, so the left side is matched;
a left token whose backtrack fails makes the conditional fail. -/
theorem c9_witness :
    Conditional.matchFn condModel0 0 =
      Conditional.finishMatch condModel0 (condModel0.leftMatch 0).2 true
        (condModel0.leftMatch 0).1 none ∧
    (Conditional.backtrackFn condModel0 0 ⟨true, (), none⟩).1 = none :=
  ⟨(c9_conditional_sides condModel0 0 ⟨true, (), none⟩).1 rfl rfl,
    (c9_conditional_sides condModel0 0 ⟨true, (), none⟩).2.2.2.2.2.1 rfl rfl⟩

/-- C6: `BalancingGroup.match` fails without consuming when the pop group
has no capture; otherwise it matches the inner expression and, on success,
pops the pop group's top capture and, when a push group is present, pushes
onto it a capture spanning the middle two of the four boundaries
`[Xstart, Xend, matchStart, cursor]` sorted ascending. -/
theorem c6_balancing_group {τ : Type} (A : RepAtom BState τ) (popG : Nat)
    (pushG : Option Nat) (st : BState) :
    (st.hasCapture popG = false → BalancingGroup.matchFn A popG pushG st = (none, st)) ∧
    (∀ st1, st.hasCapture popG = true → A.matchFn st = (none, st1) →
      BalancingGroup.matchFn A popG pushG st = (none, st1)) ∧
    (∀ tok st1 c st1', st.hasCapture popG = true → A.matchFn st = (some tok, st1) →
      BState.popCapture st1 popG = (some c, st1') →
      BalancingGroup.matchFn A popG pushG st =
        (some ⟨st.index, c, tok⟩,
          match pushG with
          | none => st1'
          | some y =>
            st1'.pushCapture y
              ((sortInts [c.index, c.index + (c.value.length : Int), st.index, st1'.index]).getD 1 0)
              ((sortInts [c.index, c.index + (c.value.length : Int), st.index, st1'.index]).getD 2 0))) := by
  refine ⟨?_, ?_, ?_⟩
  · intro h
    simp [BalancingGroup.matchFn, h]
  · intro st1 h hm
    simp [BalancingGroup.matchFn, h, hm]
  · intro tok st1 c st1' h hm hp
    simp [BalancingGroup.matchFn, h, hm, BalancingGroup.balanceCapture, hp]

/-- Witness for C6: popping group 0's capture of `"a"` after the inner atom
consumed one character. -/
theorem c6_witness :
    BalancingGroup.matchFn balAtom 0 none balState =
      (some ⟨1, ⟨['a'], 0⟩, ()⟩, ⟨['a', 'b'], 2, [[], []]⟩) :=
  (c6_balancing_group balAtom 0 none balState).2.2 () ⟨['a', 'b'], 2, [[⟨['a'], 0⟩], []]⟩
    ⟨['a'], 0⟩ ⟨['a', 'b'], 2, [[], []]⟩ rfl rfl rfl

/-- C4 counterexample: `invert()` on an `Anchor` does not swap its `left`
and `right` inner expressions — it is a no-op (the swap lives only in the
separate `invertAnchor` method, which tree inversion does not invoke). -/
theorem c4_counterexample :
    Expr.invert (Expr.anchor (some (Expr.character 0)) none 0) =
      Expr.anchor (some (Expr.character 0)) none 0 ∧
    Expr.anchor (some (Expr.character 0)) none 0 ≠
      Expr.anchor none (some (Expr.character 0)) 0 := by
  constructor
  · simp [Expr.invert]
  · intro h
    simp at h

/-- C4 amended: with `rightToLeft`, `invert()` is applied once to the tree;
`Sequence.invert` reverses the children and inverts each; `Anchor.invert`
is a no-op, and it is the separate `invertAnchor` method (invoked only for
a conditional's implicit-lookahead condition) that swaps the `left` and
`right` inner expressions, re-inverting each. -/
theorem c4_invert_amended :
    (∀ e : Expr, rtlAst true e = e.invert) ∧
    (∀ atoms : List Expr,
      Expr.invert (Expr.sequence atoms) = Expr.sequence ((atoms.map Expr.invert).reverse)) ∧
    (∀ (l r : Option Expr) (c : Nat), Expr.invert (Expr.anchor l r c) = Expr.anchor l r c) ∧
    (∀ (l r : Option Expr) (c : Nat),
      Expr.invertAnchor (Expr.anchor l r c) =
        Expr.anchor (r.map Expr.invert) (l.map Expr.invert) c) ∧
    (∀ (lft rgt : Expr) (a : Expr),
      Expr.invert (Expr.conditional lft rgt (Sum.inr a) true) =
        Expr.conditional lft.invert rgt.invert (Sum.inr (Expr.invertAnchor a)) true) := by
  refine ⟨fun e => rfl, ?_, ?_, ?_, ?_⟩
  · intro atoms
    simp only [Expr.invert]
    congr 1
    congr 1
    exact List.attach_map_val atoms Expr.invert
  · intro l r c
    simp [Expr.invert]
  · intro l r c
    cases l <;> cases r <;> simp [Expr.invertAnchor]
  · intro lft rgt a
    simp [Expr.invert]

/-- A decimal digit is not an identifier start character. -/
theorem digit_not_wordStart (c : Char) (h : isDigitChar c = true) : isWordStart c = false := by
  simp only [isDigitChar, Char.isDigit] at h
  simp only [isWordStart, Char.isAlpha, Char.isUpper, Char.isLower]
  simp only [Bool.and_eq_true, decide_eq_true_eq] at h
  simp only [Bool.or_eq_false_iff, decide_eq_false_iff_not, Bool.and_eq_false_iff,
    decide_eq_false_iff_not]
  obtain ⟨h1, h2⟩ := h
  refine ⟨fun he => by subst he; revert h1 h2; decide, ?_, ?_⟩
  · left
    intro hc
    rw [ge_iff_le, UInt32.le_def, BitVec.le_def] at hc h1
    rw [UInt32.le_def, BitVec.le_def] at h2
    revert h1 h2 hc
    norm_num
    omega
  · left
    intro hc
    rw [ge_iff_le, UInt32.le_def, BitVec.le_def] at hc h1
    rw [UInt32.le_def, BitVec.le_def] at h2
    revert h1 h2 hc
    norm_num
    omega

/-- A decimal digit is not the dollar character. -/
theorem digit_ne_dollar (c : Char) (h : isDigitChar c = true) : c ≠ dollarChar := by
  intro he
  subst he
  revert h
  decide

/-- A word character is not the dollar character. -/
theorem word_ne_dollar (c : Char) (h : isWordChar c = true) : c ≠ dollarChar := by
  intro he
  subst he
  revert h
  decide

/-- The prefix of `l` of the length of `l.takeWhile p` is `l.takeWhile p`. -/
theorem take_length_takeWhile (p : Char → Bool) (l : Str) :
    l.take (l.takeWhile p).length = l.takeWhile p := by
  induction l with
  | nil => rfl
  | cons c t ih =>
    by_cases h : p c
    · simp [List.takeWhile_cons, h, ih]
    · simp [List.takeWhile_cons, h]

/-- `takeWhile` over an append stops exactly at the boundary when all of
`xs` satisfies the predicate and the head of `ys` (if any) does not. -/
theorem takeWhile_all_append (p : Char → Bool) (xs ys : Str)
    (h1 : ∀ c ∈ xs, p c = true) (h2 : ∀ c, ys.head? = some c → p c = false) :
    (xs ++ ys).takeWhile p = xs := by
  rw [List.takeWhile_append_of_pos h1]
  suffices hy : ys.takeWhile p = [] by rw [hy, List.append_nil]
  cases ys with
  | nil => rfl
  | cons y t => simp [List.takeWhile_cons, h2 y rfl]

/-- `Match.result`'s scan copies dollar-free text verbatim. -/
theorem resultLoop_literal (m : MatchR) (l : Str) (h : ∀ c ∈ l, c ≠ dollarChar) :
    resultLoop m l = Except.ok l := by
  induction l with
  | nil => simp [resultLoop]
  | cons c t ih =>
    rw [resultLoop]
    rw [if_neg (h c (by simp))]
    rw [ih (fun c hc => h c (by simp [hc]))]

/-- Evaluation of a `$digits` escape: the whole digit run is looked up; if
it does not name a group, a literal dollar is emitted and nothing further is
consumed. -/
theorem dollarBranch_digits (m : MatchR) (ds suffix : Str) (hds : ds ≠ [])
    (hdig : ∀ c ∈ ds, isDigitChar c = true)
    (hbreak : ∀ c, suffix.head? = some c → isDigitChar c = false) :
    dollarBranch m (ds ++ suffix) =
      if mapHas m.groups ds then
        Except.ok ((mapGet m.groups ds).elim [] GroupR.value, ds.length)
      else Except.ok ([dollarChar], 0) := by
  obtain ⟨d, ds', rfl⟩ := List.exists_cons_of_ne_nil hds
  have hd : isDigitChar d = true := hdig d (by simp)
  have hrun : digitsRun ((d :: ds') ++ suffix) = d :: ds' :=
    takeWhile_all_append _ _ _ hdig hbreak
  rw [List.cons_append] at hrun
  rw [List.cons_append]
  rw [dollarBranch]
  rw [if_neg (digit_ne_dollar d hd)]
  simp only [hrun]
  rw [if_pos (by simp)]
  by_cases hhas : mapHas m.groups (d :: ds')
  · rw [if_pos hhas, if_pos hhas]
    rw [if_pos]
    have := List.take_left (d :: ds') suffix
    rw [← List.cons_append]
    exact this
  · rw [if_neg hhas, if_neg hhas]

/-- Evaluation of the brace peek on a well-formed `{name}` template. -/
theorem bracePeek_eval (name suffix : Str) (hname : name ≠ [])
    (hnw : (isWordStart (name.headD '_') = true ∧ ∀ c ∈ name, isWordChar c = true) ∨
      (∀ c ∈ name, isDigitChar c = true)) :
    bracePeek (lbraceChar :: (name ++ rbraceChar :: suffix)) = some name := by
  obtain ⟨d, nt, rfl⟩ := List.exists_cons_of_ne_nil hname
  rw [List.cons_append]
  rcases hnw with ⟨hstart, hall⟩ | hdigits
  · simp only [List.headD_cons] at hstart
    have hW : (d :: (nt ++ rbraceChar :: suffix)).takeWhile isWordChar = d :: nt := by
      have := takeWhile_all_append isWordChar (d :: nt) (rbraceChar :: suffix) hall
        (by intro c hc; simp only [List.head?_cons, Option.some.injEq] at hc; subst hc; decide)
      rwa [List.cons_append] at this
    have hdrop : (d :: (nt ++ rbraceChar :: suffix)).drop (d :: nt).length =
        rbraceChar :: suffix := by
      have := List.drop_left (d :: nt) (rbraceChar :: suffix)
      rwa [List.cons_append] at this
    simp [bracePeek, hstart, hW, hdrop]
  · have hd : isDigitChar d = true := hdigits d (by simp)
    have hW : (d :: (nt ++ rbraceChar :: suffix)).takeWhile isDigitChar = d :: nt := by
      have := takeWhile_all_append isDigitChar (d :: nt) (rbraceChar :: suffix) hdigits
        (by intro c hc; simp only [List.head?_cons, Option.some.injEq] at hc; subst hc; decide)
      rwa [List.cons_append] at this
    have hdrop : (d :: (nt ++ rbraceChar :: suffix)).drop (d :: nt).length =
        rbraceChar :: suffix := by
      have := List.drop_left (d :: nt) (rbraceChar :: suffix)
      rwa [List.cons_append] at this
    simp [bracePeek, digit_not_wordStart d hd, hd, hW, hdrop]

/-- Taking one element past an initial segment keeps the next element. -/
theorem take_length_add_one {α : Type} (xs : List α) (y : α) (zs : List α) :
    (xs ++ y :: zs).take (xs.length + 1) = xs ++ [y] := by
  induction xs with
  | nil => simp
  | cons x t ih => simpa using ih

/-- Evaluation of a `${name}` escape: the brace contents are looked up; if
they do not name a group, a literal dollar is emitted and nothing further
is consumed. -/
theorem dollarBranch_brace (m : MatchR) (name suffix : Str) (hname : name ≠ [])
    (hnw : (isWordStart (name.headD '_') = true ∧ ∀ c ∈ name, isWordChar c = true) ∨
      (∀ c ∈ name, isDigitChar c = true)) :
    dollarBranch m (lbraceChar :: (name ++ rbraceChar :: suffix)) =
      if mapHas m.groups name then
        Except.ok ((mapGet m.groups name).elim [] GroupR.value, name.length + 2)
      else Except.ok ([dollarChar], 0) := by
  have hempty : digitsRun (lbraceChar :: (name ++ rbraceChar :: suffix)) = [] := by
    simp [digitsRun, List.takeWhile_cons, show isDigitChar lbraceChar = false from by decide]
  have hpeek := bracePeek_eval name suffix hname hnw
  have htake : (lbraceChar :: (name ++ rbraceChar :: suffix)).take
      (lbraceChar :: (name ++ [rbraceChar])).length = lbraceChar :: (name ++ [rbraceChar]) := by
    have h2 : lbraceChar :: (name ++ rbraceChar :: suffix) =
        (lbraceChar :: (name ++ [rbraceChar])) ++ suffix := by
      simp
    rw [h2]
    exact List.take_left _ _
  by_cases hhas : mapHas m.groups name
  · simp [dollarBranch, hempty, hpeek, hhas, htake,
      show ¬(lbraceChar = dollarChar) from by decide]
    exact take_length_add_one name rbraceChar suffix
  · simp [dollarBranch, hempty, hpeek, hhas,
      show ¬(lbraceChar = dollarChar) from by decide]

/-- Dropping one element past an initial segment lands after that element. -/
theorem drop_length_add_one {α : Type} (xs : List α) (y : α) (zs : List α) :
    (xs ++ y :: zs).drop (xs.length + 1) = zs := by
  induction xs with
  | nil => simp
  | cons x t ih => simpa using ih

/-- C2 amended: `$digits` (and `${name}` / `${digits}`) is replaced by the
group's value when the entire digit run (or brace contents) names an
existing group; otherwise the characters are emitted literally — no shorter
prefix of the digit run is tried. -/
theorem c2_backreference_amended (m : MatchR) (ds name suffix : Str)
    (hsucc : m.success = true)
    (hds : ds ≠ [])
    (hdig : ∀ c ∈ ds, isDigitChar c = true)
    (hname : name ≠ [])
    (hnw : (isWordStart (name.headD '_') = true ∧ ∀ c ∈ name, isWordChar c = true) ∨
      (∀ c ∈ name, isDigitChar c = true))
    (hsuf : ∀ c ∈ suffix, c ≠ dollarChar)
    (hbreak : ∀ c, suffix.head? = some c → isDigitChar c = false) :
    MatchR.result m (dollarChar :: (ds ++ suffix)) =
      Except.ok ((if mapHas m.groups ds then
          (mapGet m.groups ds).elim [] GroupR.value
        else dollarChar :: ds) ++ suffix) ∧
    MatchR.result m (dollarChar :: lbraceChar :: (name ++ rbraceChar :: suffix)) =
      Except.ok ((if mapHas m.groups name then
          (mapGet m.groups name).elim [] GroupR.value
        else dollarChar :: lbraceChar :: (name ++ [rbraceChar])) ++ suffix) := by
  have hlit1 : ∀ c ∈ ds ++ suffix, c ≠ dollarChar := by
    intro c hc
    rcases List.mem_append.mp hc with h | h
    · exact digit_ne_dollar c (hdig c h)
    · exact hsuf c h
  have hlit2 : ∀ c ∈ lbraceChar :: (name ++ rbraceChar :: suffix), c ≠ dollarChar := by
    intro c hc
    rcases List.mem_cons.mp hc with rfl | hc
    · decide
    rcases List.mem_append.mp hc with h | h
    · rcases hnw with ⟨_, hall⟩ | hdigits
      · exact word_ne_dollar c (hall c h)
      · exact digit_ne_dollar c (hdigits c h)
    rcases List.mem_cons.mp h with rfl | h
    · decide
    · exact hsuf c h
  constructor
  · have hb := dollarBranch_digits m ds suffix hds hdig hbreak
    by_cases hhas : mapHas m.groups ds
    · rw [if_pos hhas] at hb
      simp [MatchR.result, hsucc, resultLoop, hb, List.drop_left,
        resultLoop_literal m suffix hsuf, hhas]
    · rw [if_neg hhas] at hb
      simp [MatchR.result, hsucc, resultLoop, hb,
        resultLoop_literal m (ds ++ suffix) hlit1, hhas]
  · have hb := dollarBranch_brace m name suffix hname hnw
    have hdrop2 : (lbraceChar :: (name ++ rbraceChar :: suffix)).drop (name.length + 2) =
        suffix := by
      have : name.length + 2 = (name.length + 1) + 1 := rfl
      rw [this, List.drop_succ_cons]
      exact drop_length_add_one name rbraceChar suffix
    by_cases hhas : mapHas m.groups name
    · rw [if_pos hhas] at hb
      simp [MatchR.result, hsucc, resultLoop, hb, hdrop2,
        resultLoop_literal m suffix hsuf, hhas]
    · rw [if_neg hhas] at hb
      simp [MatchR.result, hsucc, resultLoop, hb,
        resultLoop_literal m (lbraceChar :: (name ++ rbraceChar :: suffix)) hlit2, hhas]

/-- C2 counterexample: with only group `"1"` defined (capturing `"a"`),
the template `$12` is emitted literally — the code looks up the whole digit
run `12`, finds no such group, and falls through to a literal `$`; the
claimed longest-prefix behaviour would instead produce `a2`. -/
theorem c2_counterexample :
    MatchR.result c2m ['$', '1', '2'] = Except.ok ['$', '1', '2'] ∧
    ['$', '1', '2'] ≠ ['a', '2'] := by
  constructor
  · have hb : dollarBranch c2m ['1', '2'] = Except.ok ([dollarChar], 0) := by rfl
    simp [MatchR.result, show c2m.success = true from rfl, resultLoop, hb, dollarChar,
      resultLoop_literal c2m ['1', '2'] (by decide)]
  · decide

/-- Witness for C2 at the concrete match `c2m`. -/
theorem c2_witness :
    MatchR.result c2m (dollarChar :: ((['1'] : Str) ++ [])) =
      Except.ok ((if mapHas c2m.groups ['1'] then
          (mapGet c2m.groups ['1']).elim [] GroupR.value
        else dollarChar :: ['1']) ++ []) ∧
    MatchR.result c2m (dollarChar :: lbraceChar :: ((['1'] : Str) ++ rbraceChar :: ([] : Str))) =
      Except.ok ((if mapHas c2m.groups ['1'] then
          (mapGet c2m.groups ['1']).elim [] GroupR.value
        else dollarChar :: lbraceChar :: (['1'] ++ [rbraceChar])) ++ []) :=
  c2_backreference_amended c2m ['1'] ['1'] [] rfl (by decide) (by decide) (by decide)
    (Or.inr (by decide)) (by simp) (by simp)

/-- Inserting into the stable sort grows the length by one. -/
theorem insertByNat_length (x : Str) (l : List Str) :
    (insertByNat x l).length = l.length + 1 := by
  induction l with
  | nil => rfl
  | cons y ys ih =>
    by_cases h : natVal x ≤ natVal y
    · simp [insertByNat, h]
    · simp [insertByNat, h, ih]

/-- Sorting preserves the length. -/
theorem sortByNat_length (l : List Str) : (sortByNat l).length = l.length := by
  induction l with
  | nil => rfl
  | cons x xs ih => simp [sortByNat, insertByNat_length, ih]

/-- The collapsed walk emits every element of both queues exactly once. -/
theorem collapsedWalk_length (i : Nat) (ns ms : List Str) :
    (collapsedWalk i ns ms).length = ns.length + ms.length := by
  induction i, ns, ms using collapsedWalk.induct with
  | case1 i ms => simp [collapsedWalk]
  | case2 i ns h => cases ns with
    | nil => exact absurd rfl h
    | cons a t => simp [collapsedWalk]
  | case3 i ntail m mtail ih => simp [collapsedWalk, ih]; omega
  | case4 i n ntail m mtail h ih => simp [collapsedWalk, h, ih]; omega

/-- A filter and its complement partition the length. -/
theorem length_filter_partition {α : Type} (p : α → Bool) (l : List α) :
    (l.filter p).length + (l.filter (fun x => !p x)).length = l.length := by
  induction l with
  | nil => rfl
  | cons x xs ih =>
    by_cases h : p x <;> simp [h, ih] <;> omega

/-- The collapsed group list has one entry per group-map key. -/
theorem mkCollapsed_length (keys : List Str) : (mkCollapsed keys).length = keys.length := by
  rw [mkCollapsed, collapsedWalk_length, sortByNat_length]
  exact length_filter_partition isDecimalName keys

/-- `map.set` never yields an empty map. -/
theorem mapSet_ne_nil {α : Type} (l : List (Str × α)) (k : Str) (v : α) :
    mapSet l k v ≠ [] := by
  by_cases h : l.any (fun p => p.1 = k)
  · simp only [mapSet, h, if_true]
    rintro hc
    rw [List.map_eq_nil_iff] at hc
    subst hc
    simp at h
  · simp [mapSet, h]

/-- C1 amended: `$+` substitutes the value of the last group in the
collapsed group order, regardless of whether that group succeeded (a failed
group contributes the empty string); when the pattern has no capture groups
the collapsed list is just the whole-match group `"0"`.  The collapsed list
is never empty on a successful match. -/
theorem c1_last_group_amended (groups0 : List (Str × GroupR)) (c : Capture) (input : Str)
    (ni : Int) :
    (MatchR.make groups0 (some c) input ni).collapsedGroupList ≠ [] ∧
    MatchR.result (MatchR.make groups0 (some c) input ni) [dollarChar, '+'] =
      Except.ok ((mapGet (MatchR.make groups0 (some c) input ni).groups
          ((MatchR.make groups0 (some c) input ni).collapsedGroupList.getLastD [])).elim
        [] GroupR.value) := by
  constructor
  · intro hc
    have hl := congrArg List.length hc
    rw [show (MatchR.make groups0 (some c) input ni).collapsedGroupList =
        mkCollapsed ((mapSet groups0 [zeroChar] ⟨[zeroChar], [c]⟩).map (fun p => p.1)) from rfl]
      at hl
    rw [mkCollapsed_length] at hl
    simp only [List.length_map, List.length_nil] at hl
    exact mapSet_ne_nil groups0 [zeroChar] ⟨[zeroChar], [c]⟩ (List.length_eq_zero.mp hl)
  · have hb : dollarBranch (MatchR.make groups0 (some c) input ni) ['+'] =
        Except.ok ((mapGet (MatchR.make groups0 (some c) input ni).groups
          ((MatchR.make groups0 (some c) input ni).collapsedGroupList.getLastD [])).elim
          [] GroupR.value, 1) := rfl
    simp [MatchR.result, show (MatchR.make groups0 (some c) input ni).success = true from rfl,
      resultLoop, hb]

/-- C1 counterexample: with group 1 successful (capturing `"a"`) and group
2 unsuccessful, `$+` substitutes the value of group 2 — the empty string —
not the value `"a"` of the last *successful* group. -/
theorem c1_counterexample :
    MatchR.result c1m ['$', '+'] = Except.ok [] ∧ ([] : Str) ≠ ['a'] := by
  constructor
  · have hcol : c1m.collapsedGroupList = [['0'], ['1'], ['2']] := by
      rw [show c1m.collapsedGroupList =
        collapsedWalk 0 (sortByNat (([['1'], ['2'], ['0']] : List Str).filter isDecimalName))
          (([['1'], ['2'], ['0']] : List Str).filter (fun k => !isDecimalName k)) from rfl]
      rw [show sortByNat (([['1'], ['2'], ['0']] : List Str).filter isDecimalName) =
        [['0'], ['1'], ['2']] from rfl]
      rw [show (([['1'], ['2'], ['0']] : List Str).filter (fun k => !isDecimalName k)) =
        ([] : List Str) from rfl]
      simp [collapsedWalk]
    have hb : dollarBranch c1m ['+'] = Except.ok
        ((mapGet c1m.groups (c1m.collapsedGroupList.getLastD [])).elim [] GroupR.value, 1) := rfl
    rw [hcol] at hb
    rw [show (mapGet c1m.groups (([['0'], ['1'], ['2']] : List Str).getLastD [])).elim
        [] GroupR.value = ([] : Str) from rfl] at hb
    simp [MatchR.result, show c1m.success = true from rfl, resultLoop, hb, dollarChar]
  · decide

/-- A two-character pass skips a non-backslash character. -/
theorem replace2All_cons_ne (b r x : Char) (l : Str) (h : x ≠ bslashChar) :
    replace2All bslashChar b r (x :: l) = x :: replace2All bslashChar b r l := by
  cases l with
  | nil => rfl
  | cons y t =>
    rw [replace2All]
    rw [if_neg (fun hc => h hc.1)]

/-- A two-character pass replaces its escape pair. -/
theorem replace2All_pair (b r : Char) (l : Str) :
    replace2All bslashChar b r (bslashChar :: b :: l) = r :: replace2All bslashChar b r l := by
  rw [replace2All]
  rw [if_pos ⟨rfl, rfl⟩]

/-- A two-character pass leaves a backslash pair with a different letter. -/
theorem replace2All_pair_ne (b r y : Char) (l : Str) (h : y ≠ b) :
    replace2All bslashChar b r (bslashChar :: y :: l) =
      bslashChar :: replace2All bslashChar b r (y :: l) := by
  rw [replace2All]
  rw [if_neg (fun hc => h hc.2)]

/-- A backslash block with a different letter is untouched. -/
theorem replace2All_block_ne (b r y : Char) (hyb : y ≠ b) (hy : y ≠ bslashChar) :
    replace2All bslashChar b r [bslashChar, y] = [bslashChar, y] := by
  rw [replace2All_pair_ne b r y [] hyb]
  rfl

/-- A two-character pass distributes over the blocks of an escaped string. -/
theorem replace2All_flatMap (b r : Char) (h : Char → Str) (s : Str)
    (H : ∀ c ∈ s, GoodBlock (h c)) :
    replace2All bslashChar b r (s.flatMap h) =
      s.flatMap (fun c => replace2All bslashChar b r (h c)) := by
  induction s with
  | nil => rfl
  | cons c t ih =>
    rw [List.flatMap_cons, List.flatMap_cons]
    have ht := ih (fun x hx => H x (by simp [hx]))
    rcases H c (by simp) with ⟨u, hu, he⟩ | ⟨v, hv, he⟩
    · rw [he]
      simp only [List.singleton_append]
      rw [replace2All_cons_ne b r u _ hu, ht]
      rfl
    · rw [he]
      simp only [List.cons_append, List.nil_append]
      by_cases hb2 : v = b
      · subst hb2
        rw [replace2All_pair, ht, replace2All_pair]
        rfl
      · rw [replace2All_pair_ne b r v _ hb2, replace2All_cons_ne b r v _ hv, ht]
        rw [replace2All_pair_ne b r v [] hb2, replace2All_cons_ne b r v [] hv]
        rfl

/-- A two-character pass maps good blocks to good blocks when its
replacement character is not a backslash. -/
theorem goodBlock_replace2All (b r : Char) (hr : r ≠ bslashChar) (l : Str)
    (hl : GoodBlock l) : GoodBlock (replace2All bslashChar b r l) := by
  rcases hl with ⟨u, hu, rfl⟩ | ⟨v, hv, rfl⟩
  · exact Or.inl ⟨u, hu, rfl⟩
  · by_cases hb2 : v = b
    · subst hb2
      left
      exact ⟨r, hr, by rw [replace2All_pair]; rfl⟩
    · right
      exact ⟨v, hv, replace2All_block_ne b r v hb2 hv⟩

/-- The octal pass skips a non-backslash character. -/
theorem passOctal_cons_ne (x : Char) (l : Str) (h : x ≠ bslashChar) :
    passOctal (x :: l) = x :: passOctal l := by
  match l with
  | [] => rfl
  | [d] =>
    have hc : ¬(x = bslashChar ∧ isOctalChar d = true) := fun hc => h hc.1
    simp only [passOctal, if_neg hc]
  | [d, e] =>
    have hc : ¬(x = bslashChar ∧ isOctalChar d = true) := fun hc => h hc.1
    simp only [passOctal, if_neg hc]
  | d :: e :: f :: r =>
    have hc : ¬(x = bslashChar ∧ isOctalChar d = true) := fun hc => h hc.1
    simp only [passOctal, if_neg hc]

/-- The octal pass skips a backslash followed by a non-octal character. -/
theorem passOctal_slash_nonoct (v : Char) (l : Str) (hv : isOctalChar v = false) :
    passOctal (bslashChar :: v :: l) = bslashChar :: passOctal (v :: l) := by
  have hc : ¬(bslashChar = bslashChar ∧ isOctalChar v = true) := by
    rintro ⟨-, h2⟩
    rw [hv] at h2
    exact Bool.false_ne_true h2
  match l with
  | [] => simp [passOctal, hv]
  | [e] => simp [passOctal, hv]
  | e :: f :: r => simp [passOctal, hv]

/-- The octal pass leaves an escaped string without octal escapes alone. -/
theorem passOctal_flatMap (h : Char → Str) (s : Str)
    (H : ∀ c ∈ s, GoodBlock (h c) ∧ ∀ v, h c = [bslashChar, v] → isOctalChar v = false) :
    passOctal (s.flatMap h) = s.flatMap h := by
  induction s with
  | nil => rfl
  | cons c t ih =>
    have ht := ih (fun x hx => H x (by simp [hx]))
    obtain ⟨hg, hno⟩ := H c (by simp)
    rw [List.flatMap_cons]
    rcases hg with ⟨u, hu, he⟩ | ⟨v, hv, he⟩
    · rw [he]
      simp only [List.singleton_append]
      rw [passOctal_cons_ne u _ hu, ht]
    · rw [he]
      simp only [List.cons_append, List.nil_append]
      rw [passOctal_slash_nonoct v _ (hno v he), passOctal_cons_ne v _ hv, ht]

/-- The control-letter pass skips a non-backslash character. -/
theorem passControl_skip (x : Char) (l : Str) (hx : x ≠ bslashChar) :
    passControl (x :: l) = (passControl l).map (fun t => x :: t) := by
  match l with
  | [] => rfl
  | k :: rest =>
    have hc : ¬(x = bslashChar ∧ k = 'c') := fun hc => hx hc.1
    rw [passControl.eq_def]
    simp only [if_neg hc]

/-- The control-letter pass skips a backslash pair that is not `\c`. -/
theorem passControl_slash (v : Char) (l : Str) (hv : v ≠ 'c') :
    passControl (bslashChar :: v :: l) = (passControl (v :: l)).map (fun t => bslashChar :: t) := by
  rw [passControl.eq_def]
  simp [hv]

/-- The control-letter pass leaves an escaped string without `\c` alone. -/
theorem passControl_flatMap (h : Char → Str) (s : Str)
    (H : ∀ c ∈ s, GoodBlock (h c) ∧ ∀ v, h c = [bslashChar, v] → v ≠ 'c') :
    passControl (s.flatMap h) = Except.ok (s.flatMap h) := by
  induction s with
  | nil => rfl
  | cons c t ih =>
    have ht := ih (fun x hx => H x (by simp [hx]))
    obtain ⟨hg, hno⟩ := H c (by simp)
    rw [List.flatMap_cons]
    rcases hg with ⟨u, hu, he⟩ | ⟨v, hv, he⟩
    · rw [he]
      simp only [List.singleton_append]
      rw [passControl_skip u _ hu, ht]
      rfl
    · rw [he]
      simp only [List.cons_append, List.nil_append]
      rw [passControl_slash v _ (hno v he), passControl_skip v _ hv, ht]
      rfl

/-- The `\x` pass skips a non-backslash character. -/
theorem passHex2_skip (x : Char) (l : Str) (hx : x ≠ bslashChar) :
    passHex2 (x :: l) = (passHex2 l).map (fun t => x :: t) := by
  match l with
  | [] => rfl
  | k :: rest =>
    have hc : ¬(x = bslashChar ∧ k = 'x') := fun hc => hx hc.1
    rw [passHex2.eq_def]
    simp only [if_neg hc]

/-- The `\x` pass skips a backslash pair that is not `\x`. -/
theorem passHex2_slash (v : Char) (l : Str) (hv : v ≠ 'x') :
    passHex2 (bslashChar :: v :: l) = (passHex2 (v :: l)).map (fun t => bslashChar :: t) := by
  rw [passHex2.eq_def]
  simp [hv]

/-- The `\x` pass leaves an escaped string without `\x` alone. -/
theorem passHex2_flatMap (h : Char → Str) (s : Str)
    (H : ∀ c ∈ s, GoodBlock (h c) ∧ ∀ v, h c = [bslashChar, v] → v ≠ 'x') :
    passHex2 (s.flatMap h) = Except.ok (s.flatMap h) := by
  induction s with
  | nil => rfl
  | cons c t ih =>
    have ht := ih (fun x hx => H x (by simp [hx]))
    obtain ⟨hg, hno⟩ := H c (by simp)
    rw [List.flatMap_cons]
    rcases hg with ⟨u, hu, he⟩ | ⟨v, hv, he⟩
    · rw [he]
      simp only [List.singleton_append]
      rw [passHex2_skip u _ hu, ht]
      rfl
    · rw [he]
      simp only [List.cons_append, List.nil_append]
      rw [passHex2_slash v _ (hno v he), passHex2_skip v _ hv, ht]
      rfl

/-- The `\u` pass skips a non-backslash character. -/
theorem passHex4_skip (x : Char) (l : Str) (hx : x ≠ bslashChar) :
    passHex4 (x :: l) = (passHex4 l).map (fun t => x :: t) := by
  match l with
  | [] => rfl
  | k :: rest =>
    have hc : ¬(x = bslashChar ∧ k = 'u') := fun hc => hx hc.1
    rw [passHex4.eq_def]
    simp only [if_neg hc]

/-- The `\u` pass skips a backslash pair that is not `\u`. -/
theorem passHex4_slash (v : Char) (l : Str) (hv : v ≠ 'u') :
    passHex4 (bslashChar :: v :: l) = (passHex4 (v :: l)).map (fun t => bslashChar :: t) := by
  rw [passHex4.eq_def]
  simp [hv]

/-- The `\u` pass leaves an escaped string without `\u` alone. -/
theorem passHex4_flatMap (h : Char → Str) (s : Str)
    (H : ∀ c ∈ s, GoodBlock (h c) ∧ ∀ v, h c = [bslashChar, v] → v ≠ 'u') :
    passHex4 (s.flatMap h) = Except.ok (s.flatMap h) := by
  induction s with
  | nil => rfl
  | cons c t ih =>
    have ht := ih (fun x hx => H x (by simp [hx]))
    obtain ⟨hg, hno⟩ := H c (by simp)
    rw [List.flatMap_cons]
    rcases hg with ⟨u, hu, he⟩ | ⟨v, hv, he⟩
    · rw [he]
      simp only [List.singleton_append]
      rw [passHex4_skip u _ hu, ht]
      rfl
    · rw [he]
      simp only [List.cons_append, List.nil_append]
      rw [passHex4_slash v _ (hno v he), passHex4_skip v _ hv, ht]
      rfl

/-- The invalid-escape pass skips a non-backslash character. -/
theorem passInvalid_skip (x : Char) (l : Str) (hx : x ≠ bslashChar) :
    passInvalid (x :: l) = (passInvalid l).map (fun t => x :: t) := by
  match l with
  | [] => rfl
  | k :: rest =>
    have hc : ¬(x = bslashChar ∧ isInvalidEscapeChar k = true) := fun hc => hx hc.1
    rw [passInvalid.eq_def]
    simp only [if_neg hc]

/-- The invalid-escape pass skips a backslash pair with a harmless second
character. -/
theorem passInvalid_slash (v : Char) (l : Str) (hv : isInvalidEscapeChar v = false) :
    passInvalid (bslashChar :: v :: l) = (passInvalid (v :: l)).map (fun t => bslashChar :: t) := by
  rw [passInvalid.eq_def]
  simp [hv]

/-- The invalid-escape pass accepts an escaped string whose backslash pairs
are all harmless. -/
theorem passInvalid_flatMap (h : Char → Str) (s : Str)
    (H : ∀ c ∈ s, GoodBlock (h c) ∧ ∀ v, h c = [bslashChar, v] → isInvalidEscapeChar v = false) :
    passInvalid (s.flatMap h) = Except.ok (s.flatMap h) := by
  induction s with
  | nil => rfl
  | cons c t ih =>
    have ht := ih (fun x hx => H x (by simp [hx]))
    obtain ⟨hg, hno⟩ := H c (by simp)
    rw [List.flatMap_cons]
    rcases hg with ⟨u, hu, he⟩ | ⟨v, hv, he⟩
    · rw [he]
      simp only [List.singleton_append]
      rw [passInvalid_skip u _ hu, ht]
      rfl
    · rw [he]
      simp only [List.cons_append, List.nil_append]
      rw [passInvalid_slash v _ (hno v he), passInvalid_skip v _ hv, ht]
      rfl

/-- The final pass copies a non-backslash character. -/
theorem passFinal_skip (x : Char) (l : Str) (hx : x ≠ bslashChar) :
    passFinal (x :: l) = x :: passFinal l := by
  match l with
  | [] =>
    rw [passFinal.eq_def]
    simp only [if_neg hx]
    rfl
  | k :: rest =>
    rw [passFinal.eq_def]
    simp only [if_neg hx]

/-- The final pass strips the backslash of an escape pair. -/
theorem passFinal_slash (v : Char) (l : Str) :
    passFinal (bslashChar :: v :: l) = v :: passFinal l := by
  rw [passFinal.eq_def]
  simp

/-- The final pass strips exactly the block backslashes of an escaped
string. -/
theorem passFinal_flatMap (h : Char → Str) (s : Str) (H : ∀ c ∈ s, GoodBlock (h c)) :
    passFinal (s.flatMap h) = s.flatMap (fun c => passFinal (h c)) := by
  induction s with
  | nil => rfl
  | cons c t ih =>
    have ht := ih (fun x hx => H x (by simp [hx]))
    rw [List.flatMap_cons, List.flatMap_cons]
    rcases H c (by simp) with ⟨u, hu, he⟩ | ⟨v, hv, he⟩
    · rw [he]
      simp only [List.singleton_append]
      rw [passFinal_skip u _ hu, ht]
      rw [show passFinal [u] = [u] from by rw [passFinal.eq_def]; simp [hu]]
      rfl
    · rw [he]
      simp only [List.cons_append, List.nil_append]
      rw [passFinal_slash, ht, passFinal_slash]
      rfl

/-- `Regex.escape` splits at the first character. -/
theorem escape_cons (c : Char) (t : Str) :
    Regex.escape (c :: t) = Regex.escape [c] ++ Regex.escape t := by
  simp [Regex.escape, replaceCharAll, escapeClassPass]

/-- `Regex.escape` of one character is its escape block. -/
theorem escape_single (c : Char) : Regex.escape [c] = escChar c := by
  by_cases h1 : c = '\t'
  · subst h1; decide
  by_cases h2 : c = '\n'
  · subst h2; decide
  by_cases h3 : c = Char.ofNat 12
  · subst h3; decide
  by_cases h4 : c = '\r'
  · subst h4; decide
  by_cases h5 : c ∈ escapeClassChars
  · simp only [escapeClassChars, List.mem_cons, List.not_mem_nil, or_false] at h5
    rcases h5 with rfl | rfl | rfl | rfl | rfl | rfl | rfl | rfl | rfl | rfl | rfl | rfl |
      rfl | rfl <;> decide
  · simp [Regex.escape, replaceCharAll, escapeClassPass, escChar, h1, h2, h3, h4, h5]

/-- `Regex.escape` is the per-character escape map. -/
theorem escape_eq_flatMap (s : Str) : Regex.escape s = s.flatMap escChar := by
  induction s with
  | nil => rfl
  | cons c t ih => rw [escape_cons, escape_single, ih, List.flatMap_cons]

/-- The escape-class characters are inert in every unescape pass. -/
theorem classChar_facts :
    ∀ c ∈ escapeClassChars, c ≠ 't' ∧ c ≠ 'n' ∧ c ≠ 'f' ∧ c ≠ 'r' ∧ c ≠ 'a' ∧ c ≠ 'b' ∧
      c ≠ 'e' ∧ c ≠ 'v' ∧ c ≠ bslashChar ∧ isOctalChar c = false ∧ c ≠ 'c' ∧ c ≠ 'x' ∧
      c ≠ 'u' ∧ isInvalidEscapeChar c = false := by
  decide

/-- The escape blocks of a backslash-free string are good blocks. -/
theorem goodBlock_escChar (c : Char) (hc : c ≠ bslashChar) : GoodBlock (escChar c) := by
  by_cases h1 : c = '\t'
  · subst h1; right; exact ⟨'t', by decide, by decide⟩
  by_cases h2 : c = '\n'
  · subst h2; right; exact ⟨'n', by decide, by decide⟩
  by_cases h3 : c = Char.ofNat 12
  · subst h3; right; exact ⟨'f', by decide, by decide⟩
  by_cases h4 : c = '\r'
  · subst h4; right; exact ⟨'r', by decide, by decide⟩
  by_cases h5 : c ∈ escapeClassChars
  · right
    exact ⟨c, (classChar_facts c h5).2.2.2.2.2.2.2.2.1, by simp [escChar, h1, h2, h3, h4, h5]⟩
  · left
    exact ⟨c, hc, by simp [escChar, h1, h2, h3, h4, h5]⟩

/-- Pushing one escape block through the nine two-character passes yields
the class-only escape block. -/
theorem escMid_of_escChar (c : Char) (hc : c ≠ bslashChar) :
    replace2All bslashChar 'v' (Char.ofNat 11)
      (replace2All bslashChar 'f' (Char.ofNat 12)
        (replace2All bslashChar 'e' (Char.ofNat 27)
          (replace2All bslashChar 'b' (Char.ofNat 8)
            (replace2All bslashChar 'a' (Char.ofNat 7)
              (replace2All bslashChar 'r' '\r'
                (replace2All bslashChar 'f' (Char.ofNat 12)
                  (replace2All bslashChar 'n' '\n'
                    (replace2All bslashChar 't' '\t' (escChar c))))))))) = escCharMid c := by
  by_cases h1 : c = '\t'
  · subst h1; decide
  by_cases h2 : c = '\n'
  · subst h2; decide
  by_cases h3 : c = Char.ofNat 12
  · subst h3; decide
  by_cases h4 : c = '\r'
  · subst h4; decide
  by_cases h5 : c ∈ escapeClassChars
  · obtain ⟨f1, f2, f3, f4, f5, f6, f7, f8, f9, f10, f11, f12, f13, f14⟩ := classChar_facts c h5
    rw [show escChar c = [bslashChar, c] from by simp [escChar, h1, h2, h3, h4, h5]]
    rw [replace2All_block_ne 't' '\t' c f1 f9]
    rw [replace2All_block_ne 'n' '\n' c f2 f9]
    rw [replace2All_block_ne 'f' (Char.ofNat 12) c f3 f9]
    rw [replace2All_block_ne 'r' '\r' c f4 f9]
    rw [replace2All_block_ne 'a' (Char.ofNat 7) c f5 f9]
    rw [replace2All_block_ne 'b' (Char.ofNat 8) c f6 f9]
    rw [replace2All_block_ne 'e' (Char.ofNat 27) c f7 f9]
    rw [replace2All_block_ne 'f' (Char.ofNat 12) c f3 f9]
    rw [replace2All_block_ne 'v' (Char.ofNat 11) c f8 f9]
    simp [escCharMid, h5]
  · rw [show escChar c = [c] from by simp [escChar, h1, h2, h3, h4, h5]]
    rw [show escCharMid c = [c] from by simp [escCharMid, h5]]
    rfl

/-- The class-only escape blocks are good and inert in the throwing
passes. -/
theorem escCharMid_blocks (c : Char) (hc : c ≠ bslashChar) :
    GoodBlock (escCharMid c) ∧
    ∀ v, escCharMid c = [bslashChar, v] →
      (isOctalChar v = false ∧ v ≠ 'c' ∧ v ≠ 'x' ∧ v ≠ 'u' ∧
        isInvalidEscapeChar v = false) := by
  by_cases h : c ∈ escapeClassChars
  · obtain ⟨f1, f2, f3, f4, f5, f6, f7, f8, f9, f10, f11, f12, f13, f14⟩ := classChar_facts c h
    constructor
    · right
      exact ⟨c, f9, by simp [escCharMid, h]⟩
    · intro v hv
      rw [show escCharMid c = [bslashChar, c] from by simp [escCharMid, h]] at hv
      have hcv : c = v := by simpa using hv
      subst hcv
      exact ⟨f10, f11, f12, f13, f14⟩
  · constructor
    · left
      exact ⟨c, hc, by simp [escCharMid, h]⟩
    · intro v hv
      rw [show escCharMid c = [c] from by simp [escCharMid, h]] at hv
      simp at hv

/-- Unescaping an escaped backslash-free string gives the string back. -/
theorem unescape_escape (s : Str) (hnb : bslashChar ∉ s) :
    Regex.unescape (Regex.escape s) = Except.ok s := by
  have hne : ∀ c ∈ s, c ≠ bslashChar := fun c hcm he => hnb (he ▸ hcm)
  have G0 : ∀ c ∈ s, GoodBlock (escChar c) := fun c hcm => goodBlock_escChar c (hne c hcm)
  rw [escape_eq_flatMap]
  unfold Regex.unescape
  rw [replace2All_flatMap 't' '\t' escChar s G0]
  have G1 : ∀ c ∈ s, GoodBlock (replace2All bslashChar 't' '\t' (escChar c)) :=
    fun c hcm => goodBlock_replace2All 't' '\t' (by decide) _ (G0 c hcm)
  rw [replace2All_flatMap 'n' '\n' _ s G1]
  have G2 : ∀ c ∈ s, GoodBlock
      (replace2All bslashChar 'n' '\n' (replace2All bslashChar 't' '\t' (escChar c))) :=
    fun c hcm => goodBlock_replace2All 'n' '\n' (by decide) _ (G1 c hcm)
  rw [replace2All_flatMap 'f' (Char.ofNat 12) _ s G2]
  have G3 : ∀ c ∈ s, GoodBlock (replace2All bslashChar 'f' (Char.ofNat 12)
      (replace2All bslashChar 'n' '\n' (replace2All bslashChar 't' '\t' (escChar c)))) :=
    fun c hcm => goodBlock_replace2All 'f' (Char.ofNat 12) (by decide) _ (G2 c hcm)
  rw [replace2All_flatMap 'r' '\r' _ s G3]
  have G4 : ∀ c ∈ s, GoodBlock (replace2All bslashChar 'r' '\r'
      (replace2All bslashChar 'f' (Char.ofNat 12)
        (replace2All bslashChar 'n' '\n' (replace2All bslashChar 't' '\t' (escChar c))))) :=
    fun c hcm => goodBlock_replace2All 'r' '\r' (by decide) _ (G3 c hcm)
  rw [replace2All_flatMap 'a' (Char.ofNat 7) _ s G4]
  have G5 : ∀ c ∈ s, GoodBlock (replace2All bslashChar 'a' (Char.ofNat 7)
      (replace2All bslashChar 'r' '\r'
        (replace2All bslashChar 'f' (Char.ofNat 12)
          (replace2All bslashChar 'n' '\n'
            (replace2All bslashChar 't' '\t' (escChar c)))))) :=
    fun c hcm => goodBlock_replace2All 'a' (Char.ofNat 7) (by decide) _ (G4 c hcm)
  rw [replace2All_flatMap 'b' (Char.ofNat 8) _ s G5]
  have G6 : ∀ c ∈ s, GoodBlock (replace2All bslashChar 'b' (Char.ofNat 8)
      (replace2All bslashChar 'a' (Char.ofNat 7)
        (replace2All bslashChar 'r' '\r'
          (replace2All bslashChar 'f' (Char.ofNat 12)
            (replace2All bslashChar 'n' '\n'
              (replace2All bslashChar 't' '\t' (escChar c))))))) :=
    fun c hcm => goodBlock_replace2All 'b' (Char.ofNat 8) (by decide) _ (G5 c hcm)
  rw [replace2All_flatMap 'e' (Char.ofNat 27) _ s G6]
  have G7 : ∀ c ∈ s, GoodBlock (replace2All bslashChar 'e' (Char.ofNat 27)
      (replace2All bslashChar 'b' (Char.ofNat 8)
        (replace2All bslashChar 'a' (Char.ofNat 7)
          (replace2All bslashChar 'r' '\r'
            (replace2All bslashChar 'f' (Char.ofNat 12)
              (replace2All bslashChar 'n' '\n'
                (replace2All bslashChar 't' '\t' (escChar c)))))))) :=
    fun c hcm => goodBlock_replace2All 'e' (Char.ofNat 27) (by decide) _ (G6 c hcm)
  rw [replace2All_flatMap 'f' (Char.ofNat 12) _ s G7]
  have G8 : ∀ c ∈ s, GoodBlock (replace2All bslashChar 'f' (Char.ofNat 12)
      (replace2All bslashChar 'e' (Char.ofNat 27)
        (replace2All bslashChar 'b' (Char.ofNat 8)
          (replace2All bslashChar 'a' (Char.ofNat 7)
            (replace2All bslashChar 'r' '\r'
              (replace2All bslashChar 'f' (Char.ofNat 12)
                (replace2All bslashChar 'n' '\n'
                  (replace2All bslashChar 't' '\t' (escChar c))))))))) :=
    fun c hcm => goodBlock_replace2All 'f' (Char.ofNat 12) (by decide) _ (G7 c hcm)
  rw [replace2All_flatMap 'v' (Char.ofNat 11) _ s G8]
  rw [List.flatMap_congr (fun c hcm => escMid_of_escChar c (hne c hcm))]
  have HB := fun c hcm => escCharMid_blocks c (hne c hcm)
  rw [passOctal_flatMap escCharMid s
    (fun c hcm => ⟨(HB c hcm).1, fun v hv => ((HB c hcm).2 v hv).1⟩)]
  rw [passControl_flatMap escCharMid s
    (fun c hcm => ⟨(HB c hcm).1, fun v hv => ((HB c hcm).2 v hv).2.1⟩)]
  rw [show (Except.ok (s.flatMap escCharMid) : Except String Str).bind passHex2 =
    passHex2 (s.flatMap escCharMid) from rfl]
  rw [passHex2_flatMap escCharMid s
    (fun c hcm => ⟨(HB c hcm).1, fun v hv => ((HB c hcm).2 v hv).2.2.1⟩)]
  rw [show (Except.ok (s.flatMap escCharMid) : Except String Str).bind passHex4 =
    passHex4 (s.flatMap escCharMid) from rfl]
  rw [passHex4_flatMap escCharMid s
    (fun c hcm => ⟨(HB c hcm).1, fun v hv => ((HB c hcm).2 v hv).2.2.2.1⟩)]
  rw [show (Except.ok (s.flatMap escCharMid) : Except String Str).bind passInvalid =
    passInvalid (s.flatMap escCharMid) from rfl]
  rw [passInvalid_flatMap escCharMid s
    (fun c hcm => ⟨(HB c hcm).1, fun v hv => ((HB c hcm).2 v hv).2.2.2.2⟩)]
  rw [show (Except.ok (s.flatMap escCharMid) : Except String Str).map passFinal =
    Except.ok (passFinal (s.flatMap escCharMid)) from rfl]
  rw [passFinal_flatMap escCharMid s (fun c hcm => (HB c hcm).1)]
  have hstrip : ∀ c ∈ s, passFinal (escCharMid c) = [c] := by
    intro c hcm
    by_cases h : c ∈ escapeClassChars
    · rw [show escCharMid c = [bslashChar, c] from by simp [escCharMid, h], passFinal_slash]
      rfl
    · rw [show escCharMid c = [c] from by simp [escCharMid, h], passFinal.eq_def]
      simp [hne c hcm]
  rw [List.flatMap_congr hstrip, List.flatMap_singleton']

/-- C3 corrected: the round trip holds for backslash-free ASCII strings
(the code's `escape` leaves the backslash unescaped, so strings containing
backslashes are not restored). -/
theorem c3_escape_roundtrip (s : Str)
    (hascii : ∀ c ∈ s, c.toNat < 128)
    (hnb : bslashChar ∉ s) :
    (Regex.unescape (Regex.escape s)).map Regex.escape = Except.ok (Regex.escape s) := by
  rw [unescape_escape s hnb]
  rfl

/-- C3 counterexample: for the one-character string `\`, `escape` is the
identity, `unescape` deletes the lone backslash, and re-escaping yields the
empty string, so the claimed round trip fails. -/
theorem c3_counterexample :
    (Regex.unescape (Regex.escape [bslashChar])).map Regex.escape ≠
      Except.ok (Regex.escape [bslashChar]) := by
  rw [show Regex.escape [bslashChar] = [bslashChar] from rfl]
  rw [show Regex.unescape [bslashChar] = Except.ok [] from by
    simp [Regex.unescape, replace2All, passOctal, passControl, passHex2, passHex4,
      passInvalid, passFinal, Except.bind, Except.map]]
  simp [Except.map, Regex.escape, replaceCharAll, escapeClassPass]

/-- Witness for C3 on the ASCII, backslash-free string `a$`. -/
theorem c3_witness :
    (Regex.unescape (Regex.escape ['a', '$'])).map Regex.escape =
      Except.ok (Regex.escape ['a', '$']) :=
  c3_escape_roundtrip ['a', '$'] (by decide) (by decide)

/-- Index of a match built from a literal capture. -/
theorem make_capture_index (g : List (Str × GroupR)) (a : Int) (v : Str)
    (input : Str) (ni : Int) :
    (MatchR.make g (some ⟨a, v⟩) input ni).index = a := rfl

/-- Length of a match built from a literal capture. -/
theorem make_capture_length (g : List (Str × GroupR)) (a : Int) (v : Str)
    (input : Str) (ni : Int) :
    (MatchR.make g (some ⟨a, v⟩) input ni).length = v.length := rfl

/-- The length of a `substring` slice is at most the distance between the
two (unclamped) indices. -/
theorem jsSubstring_length_le (s : Str) (a b : Int) :
    ((jsSubstring s a b).length : Int) ≤ max a b - min a b := by
  simp only [jsSubstring, jsClamp, List.length_take, List.length_drop]
  omega

/-- For indices inside the string, the length of a `substring` slice is
exactly the distance between the two indices. -/
theorem jsSubstring_length_eq (s : Str) (a b : Int)
    (ha0 : 0 ≤ a) (ha : a ≤ (s.length : Int)) (hb0 : 0 ≤ b) (hb : b ≤ (s.length : Int)) :
    ((jsSubstring s a b).length : Int) = max a b - min a b := by
  simp only [jsSubstring, jsClamp, List.length_take, List.length_drop]
  omega

/-- The never-matching root expression satisfies the expression contract. -/
theorem astFail_ok : AstOk astFail := by
  constructor
  · intro st st1 h
    simp only [astFail, Prod.mk.injEq] at h
    exact h.2.symm
  · intro st u st1 h
    simp [astFail] at h

/-- `getMatch` facts: a successful search preserves direction, string and
window, and the reported match lies between the scan start and the final
cursor (on the appropriate side for each direction). -/
theorem getMatchF_facts (ast : Ast) (hok : AstOk ast) :
    ∀ (fuel : Nat) (st st1 : EState) (m : MatchR),
      Regex.getMatchF ast fuel st = some (some m, st1) →
      st1.direction = st.direction ∧ st1.str = st.str ∧
      st1.leftBound = st.leftBound ∧ st1.rightBound = st.rightBound ∧
      (st.direction = 1 → st.index ≤ m.index ∧ m.index + (m.length : Int) ≤ st1.index) ∧
      (st.direction = -1 → st1.index ≤ m.index ∧ m.index + (m.length : Int) ≤ st.index) := by
  intro fuel
  induction fuel with
  | zero => intro st st1 m h; simp [Regex.getMatchF] at h
  | succ fuel ih =>
    intro st st1 m h
    simp only [Regex.getMatchF] at h
    by_cases hob : st.outOfBounds = true
    · rw [if_pos hob] at h
      simp at h
    · rw [if_neg hob] at h
      cases hast : ast st with
      | mk o st1p =>
        cases o with
        | some u =>
          simp only [hast, Option.some.injEq, Prod.mk.injEq] at h
          obtain ⟨hm, hst1⟩ := h
          obtain ⟨gdir, gstr, glb, grb, gmono, gbnd⟩ := hok.2 st u st1p hast
          subst hm
          subst hst1
          have hle := jsSubstring_length_le st1p.str st.index st1p.index
          refine ⟨by simp [EState.finishMatch, gdir], by simp [EState.finishMatch, gstr],
            by simp [EState.finishMatch, glb], by simp [EState.finishMatch, grb], ?_, ?_⟩
          · intro hd1
            rw [hd1, mul_one] at gmono
            constructor
            · rw [make_capture_index]
              omega
            · rw [make_capture_index, make_capture_length]
              simp only [EState.finishMatch]
              omega
          · intro hdm
            rw [hdm, mul_neg_one] at gmono
            constructor
            · rw [make_capture_index]
              simp only [EState.finishMatch]
              omega
            · rw [make_capture_index, make_capture_length]
              omega
        | none =>
          simp only [hast] at h
          have hfe := hok.1 st st1p hast
          rw [hfe] at h
          obtain ⟨d1, d2, d3, d4, d5, d6⟩ := ih (st.advance 1) st1 m h
          refine ⟨by simpa [EState.advance] using d1, by simpa [EState.advance] using d2,
            by simpa [EState.advance] using d3, by simpa [EState.advance] using d4, ?_, ?_⟩
          · intro hd1
            obtain ⟨e1, e2⟩ := d5 (by simpa [EState.advance] using hd1)
            simp only [EState.advance, hd1] at e1 e2
            exact ⟨by omega, by omega⟩
          · intro hdm
            obtain ⟨e1, e2⟩ := d6 (by simpa [EState.advance] using hdm)
            simp only [EState.advance, hdm] at e1 e2
            exact ⟨by omega, by omega⟩

/-- A zero-width match is found exactly at the final cursor: the state
`getMatch` returns after a zero-width match has its cursor at the match
position. -/
theorem getMatchF_zero (ast : Ast) (hok : AstOk ast) :
    ∀ (fuel : Nat) (st st1 : EState) (m : MatchR),
      0 ≤ st.leftBound → st.rightBound ≤ (st.str.length : Int) →
      (st.direction = 1 ∧ 0 ≤ st.index ∨ st.direction = -1 ∧ st.index ≤ (st.str.length : Int)) →
      Regex.getMatchF ast fuel st = some (some m, st1) →
      m.length = 0 →
      st1.index = m.index ∧ st1.direction = st.direction := by
  intro fuel
  induction fuel with
  | zero => intro st st1 m _ _ _ h _; simp [Regex.getMatchF] at h
  | succ fuel ih =>
    intro st st1 m hl hr hin h hz
    simp only [Regex.getMatchF] at h
    by_cases hob : st.outOfBounds = true
    · rw [if_pos hob] at h
      simp at h
    · rw [if_neg hob] at h
      have hidx : 0 ≤ st.index ∧ st.index ≤ (st.str.length : Int) := by
        rcases hin with ⟨hd, hi⟩ | ⟨hd, hi⟩
        · simp [EState.outOfBounds, hd] at hob
          exact ⟨hi, by omega⟩
        · simp [EState.outOfBounds, hd] at hob
          exact ⟨by omega, hi⟩
      cases hast : ast st with
      | mk o st1p =>
        cases o with
        | some u =>
          simp only [hast, Option.some.injEq, Prod.mk.injEq] at h
          obtain ⟨hm, hst1⟩ := h
          obtain ⟨gdir, gstr, _, _, _, gbnd⟩ := hok.2 st u st1p hast
          have hb := gbnd hidx.1 hidx.2
          subst hm
          rw [make_capture_length] at hz
          have heq := jsSubstring_length_eq st1p.str st.index st1p.index hidx.1
            (by rw [gstr]; exact hidx.2) hb.1 (by rw [gstr]; exact hb.2)
          rw [hz] at heq
          subst hst1
          constructor
          · rw [make_capture_index]
            simp only [EState.finishMatch]
            omega
          · simp [EState.finishMatch, gdir]
        | none =>
          simp only [hast] at h
          have hfe := hok.1 st st1p hast
          rw [hfe] at h
          have hin2 : ((st.advance 1).direction = 1 ∧ 0 ≤ (st.advance 1).index ∨
              (st.advance 1).direction = -1 ∧
                (st.advance 1).index ≤ (((st.advance 1).str.length : Nat) : Int)) := by
            rcases hin with ⟨hd, hi⟩ | ⟨hd, hi⟩
            · left
              refine ⟨by simpa [EState.advance] using hd, ?_⟩
              simp only [EState.advance, hd]
              omega
            · right
              refine ⟨by simpa [EState.advance] using hd, ?_⟩
              simp only [EState.advance, hd]
              omega
          have ihh := ih (st.advance 1) st1 m (by simpa [EState.advance] using hl)
            (by simpa [EState.advance] using hr) hin2 h hz
          exact ⟨ihh.1, by simpa [EState.advance] using ihh.2⟩

/-- The `matches` loop invariant: all matches lie beyond the scan start,
pairwise in order and non-overlapping, strictly after a zero-width match. -/
theorem matchesF_chain (ast : Ast) (hok : AstOk ast) :
    ∀ (fuel : Nat) (st stf : EState) (ms : List MatchR),
      Regex.matchesF ast fuel st = some (ms, stf) →
      (st.direction = 1 →
        (∀ m ∈ ms, st.index ≤ m.index) ∧
        ms.Pairwise (fun m1 m2 => m1.index + (m1.length : Int) ≤ m2.index ∧
          (m1.length = 0 → m1.index < m2.index))) ∧
      (st.direction = -1 →
        (∀ m ∈ ms, m.index + (m.length : Int) ≤ st.index) ∧
        ms.Pairwise (fun m1 m2 => m2.index + (m2.length : Int) ≤ m1.index ∧
          (m1.length = 0 → m2.index + (m2.length : Int) < m1.index))) := by
  intro fuel
  induction fuel with
  | zero => intro st stf ms h; simp [Regex.matchesF] at h
  | succ fuel ih =>
    intro st stf ms h
    rw [Regex.matchesF] at h
    cases hgm : Regex.getMatchF ast (Nat.succ fuel) st with
    | none =>
      rw [hgm] at h
      simp at h
    | some r =>
      obtain ⟨om, st1⟩ := r
      cases om with
      | none =>
        rw [hgm] at h
        simp only [Option.some.injEq, Prod.mk.injEq] at h
        obtain ⟨hms, _⟩ := h
        subst hms
        constructor <;> intro _ <;>
          exact ⟨fun m hm => absurd hm (List.not_mem_nil m), List.Pairwise.nil⟩
      | some m0 =>
        rw [hgm] at h
        simp only at h
        cases hrec : Regex.matchesF ast fuel (if m0.length = 0 then st1.advance 1 else st1) with
        | none =>
          rw [hrec] at h
          simp at h
        | some r2 =>
          obtain ⟨ms2, stf2⟩ := r2
          rw [hrec] at h
          simp only [Option.some.injEq, Prod.mk.injEq] at h
          obtain ⟨hms, _⟩ := h
          subst hms
          obtain ⟨gdir, gstr, glb, grb, g1, g2⟩ :=
            getMatchF_facts ast hok (Nat.succ fuel) st st1 m0 hgm
          have ihh := ih (if m0.length = 0 then st1.advance 1 else st1) stf2 ms2 hrec
          have hdif : (if m0.length = 0 then st1.advance 1 else st1).direction = st.direction := by
            by_cases hz : m0.length = 0 <;> simp [hz, EState.advance, gdir]
          constructor
          · intro hd1
            obtain ⟨ib, ipw⟩ := ihh.1 (hdif.trans hd1)
            obtain ⟨ga, gb⟩ := g1 hd1
            by_cases hz : m0.length = 0
            · simp only [if_pos hz, EState.advance, gdir, hd1] at ib
              refine ⟨?_, ?_⟩
              · intro m hm
                rcases List.mem_cons.mp hm with rfl | hm2
                · exact ga
                · have := ib m hm2
                  omega
              · refine List.Pairwise.cons ?_ ipw
                intro m2 hm2
                have hb := ib m2 hm2
                exact ⟨by omega, fun _ => by omega⟩
            · simp only [if_neg hz] at ib
              refine ⟨?_, ?_⟩
              · intro m hm
                rcases List.mem_cons.mp hm with rfl | hm2
                · exact ga
                · have := ib m hm2
                  omega
              · refine List.Pairwise.cons ?_ ipw
                intro m2 hm2
                have hb := ib m2 hm2
                exact ⟨by omega, fun hzz => absurd hzz hz⟩
          · intro hdm
            obtain ⟨ib, ipw⟩ := ihh.2 (hdif.trans hdm)
            obtain ⟨ga, gb⟩ := g2 hdm
            by_cases hz : m0.length = 0
            · simp only [if_pos hz, EState.advance, gdir, hdm] at ib
              refine ⟨?_, ?_⟩
              · intro m hm
                rcases List.mem_cons.mp hm with rfl | hm2
                · exact gb
                · have := ib m hm2
                  omega
              · refine List.Pairwise.cons ?_ ipw
                intro m2 hm2
                have hb := ib m2 hm2
                exact ⟨by omega, fun _ => by omega⟩
            · simp only [if_neg hz] at ib
              refine ⟨?_, ?_⟩
              · intro m hm
                rcases List.mem_cons.mp hm with rfl | hm2
                · exact gb
                · have := ib m hm2
                  omega
              · refine List.Pairwise.cons ?_ ipw
                intro m2 hm2
                have hb := ib m2 hm2
                exact ⟨by omega, fun hzz => absurd hzz hz⟩

/-- C7: under the expression contract, the list returned by `matches` is
pairwise ordered and strictly non-overlapping — non-decreasing indices
left-to-right, non-increasing right-to-left, with a strict step after a
zero-width match — and inside the loop, after a zero-width match the next
search starts exactly one position further in the current direction. -/
theorem c7_matches_invariants (ast : Ast) (fuel : Nat) (input : Str)
    (start : Option Int) (rtl : Bool) (groupNames : List Str) (ms : List MatchR)
    (hok : AstOk ast)
    (hms : Regex.matchesTop ast fuel input start rtl groupNames = some ms) :
    (rtl = false → ms.Pairwise (fun m1 m2 =>
        m1.index + (m1.length : Int) ≤ m2.index ∧ (m1.length = 0 → m1.index < m2.index))) ∧
    (rtl = true → ms.Pairwise (fun m1 m2 =>
        m2.index + (m2.length : Int) ≤ m1.index ∧
        (m1.length = 0 → m2.index + (m2.length : Int) < m1.index))) ∧
    (∀ (fuel2 : Nat) (st st1 : EState) (m : MatchR),
      0 ≤ st.leftBound → st.rightBound ≤ (st.str.length : Int) →
      (st.direction = 1 ∧ 0 ≤ st.index ∨ st.direction = -1 ∧ st.index ≤ (st.str.length : Int)) →
      Regex.getMatchF ast (Nat.succ fuel2) st = some (some m, st1) →
      m.length = 0 →
      Regex.matchesF ast (Nat.succ fuel2) st =
        (match Regex.matchesF ast fuel2 (st1.advance 1) with
          | none => none
          | some (ms2, stf) => some (m :: ms2, stf)) ∧
      (st1.advance 1).index = m.index + st.direction) := by
  unfold Regex.matchesTop at hms
  cases hmf : Regex.matchesF ast fuel (Regex.createState input start none rtl groupNames) with
  | none =>
    rw [hmf] at hms
    simp at hms
  | some r =>
    obtain ⟨ms0, stf⟩ := r
    rw [hmf] at hms
    simp at hms
    subst hms
    have ch := matchesF_chain ast hok fuel
      (Regex.createState input start none rtl groupNames) stf ms0 hmf
    refine ⟨?_, ?_, ?_⟩
    · intro hrtl
      subst hrtl
      exact (ch.1 (by simp [Regex.createState])).2
    · intro hrtl
      subst hrtl
      exact (ch.2 (by simp [Regex.createState])).2
    · intro fuel2 st st1 m hl hr hin hgm hz
      constructor
      · rw [Regex.matchesF]
        simp [hgm, hz]
      · obtain ⟨hi, hd⟩ := getMatchF_zero ast hok (Nat.succ fuel2) st st1 m hl hr hin hgm hz
        simp only [EState.advance]
        rw [hi, hd]
        omega

/-- Witness for C7 on the never-matching expression over the input `"a"`
with three units of fuel. -/
theorem c7_witness :
    AstOk astFail ∧
    ((false = false → ([] : List MatchR).Pairwise (fun m1 m2 =>
        m1.index + (m1.length : Int) ≤ m2.index ∧ (m1.length = 0 → m1.index < m2.index))) ∧
      (false = true → ([] : List MatchR).Pairwise (fun m1 m2 =>
        m2.index + (m2.length : Int) ≤ m1.index ∧
        (m1.length = 0 → m2.index + (m2.length : Int) < m1.index))) ∧
      (∀ (fuel2 : Nat) (st st1 : EState) (m : MatchR),
        0 ≤ st.leftBound → st.rightBound ≤ (st.str.length : Int) →
        (st.direction = 1 ∧ 0 ≤ st.index ∨ st.direction = -1 ∧ st.index ≤ (st.str.length : Int)) →
        Regex.getMatchF astFail (Nat.succ fuel2) st = some (some m, st1) →
        m.length = 0 →
        Regex.matchesF astFail (Nat.succ fuel2) st =
          (match Regex.matchesF astFail fuel2 (st1.advance 1) with
            | none => none
            | some (ms2, stf) => some (m :: ms2, stf)) ∧
        (st1.advance 1).index = m.index + st.direction)) :=
  ⟨astFail_ok, c7_matches_invariants astFail 3 ['a'] none false [] [] astFail_ok rfl⟩

/-- A match built from a present capture is successful. -/
theorem make_some_success (g : List (Str × GroupR)) (c : Capture) (input : Str) (ni : Int) :
    (MatchR.make g (some c) input ni).success = true := rfl

/-- Splitting out the shape of a successful brace peek: the scanned text
starts with an opening brace, the contents, and a closing brace. -/
theorem brace_take_split (p : Char → Bool) (rest w : Str)
    (hweq : rest.takeWhile p = w)
    (hh : (rest.drop (rest.takeWhile p).length).head? = some rbraceChar) :
    ∃ t, rest = w ++ rbraceChar :: t := by
  have hsplit := List.take_append_drop (rest.takeWhile p).length rest
  rw [take_length_takeWhile] at hsplit
  cases hd2 : rest.drop (rest.takeWhile p).length with
  | nil =>
    rw [hd2] at hh
    simp at hh
  | cons x t =>
    rw [hd2] at hh hsplit
    simp at hh
    subst hh
    refine ⟨t, ?_⟩
    rw [← hweq]
    exact hsplit.symm

/-- A successful `bracePeek` decomposes the text as
`{` ++ contents ++ `}` ++ remainder. -/
theorem bracePeek_split (l w : Str) (h : bracePeek l = some w) :
    ∃ t, l = lbraceChar :: (w ++ rbraceChar :: t) := by
  cases l with
  | nil => simp [bracePeek] at h
  | cons c rest =>
    simp only [bracePeek] at h
    by_cases hc : c = lbraceChar
    · rw [if_pos hc] at h
      subst hc
      cases rest with
      | nil => simp at h
      | cons d rest2 =>
        simp only at h
        by_cases hw : isWordStart d = true
        · rw [if_pos hw] at h
          by_cases hh : ((d :: rest2).drop ((d :: rest2).takeWhile isWordChar).length).head? =
              some rbraceChar
          · rw [if_pos hh] at h
            obtain ⟨t, ht⟩ := brace_take_split isWordChar (d :: rest2) w (Option.some.inj h) hh
            exact ⟨t, by rw [ht]⟩
          · rw [if_neg hh] at h
            simp at h
        · rw [if_neg hw] at h
          by_cases hdg : isDigitChar d = true
          · rw [if_pos hdg] at h
            by_cases hh : ((d :: rest2).drop ((d :: rest2).takeWhile isDigitChar).length).head? =
                some rbraceChar
            · rw [if_pos hh] at h
              obtain ⟨t, ht⟩ := brace_take_split isDigitChar (d :: rest2) w (Option.some.inj h) hh
              exact ⟨t, by rw [ht]⟩
            · rw [if_neg hh] at h
              simp at h
          · rw [if_neg hdg] at h
            simp at h
    · rw [if_neg hc] at h
      simp at h

/-- The `$`-escape evaluator never throws: the two internal re-consume
checks always succeed. -/
theorem dollarBranch_ok (m : MatchR) (l : Str) :
    ∃ piece n, dollarBranch m l = Except.ok (piece, n) := by
  cases l with
  | nil => exact ⟨[dollarChar], 0, rfl⟩
  | cons c rest =>
    simp only [dollarBranch]
    by_cases hd : c = dollarChar
    · rw [if_pos hd]
      exact ⟨[dollarChar], 1, rfl⟩
    · rw [if_neg hd]
      by_cases hds : (digitsRun (c :: rest)).isEmpty = false
      · rw [if_pos hds]
        by_cases hhas : mapHas m.groups (digitsRun (c :: rest)) = true
        · rw [if_pos hhas]
          have hcond : (c :: rest).take (digitsRun (c :: rest)).length = digitsRun (c :: rest) := by
            simp only [digitsRun]
            exact take_length_takeWhile isDigitChar (c :: rest)
          rw [if_pos hcond]
          exact ⟨_, _, rfl⟩
        · rw [if_neg hhas]
          exact ⟨[dollarChar], 0, rfl⟩
      · rw [if_neg hds]
        cases hbp : bracePeek (c :: rest) with
        | some inner =>
          simp only [hbp]
          obtain ⟨t, ht⟩ := bracePeek_split (c :: rest) inner hbp
          by_cases hhas : mapHas m.groups inner = true
          · rw [if_pos hhas]
            have hcond : (c :: rest).take (lbraceChar :: (inner ++ [rbraceChar])).length =
                lbraceChar :: (inner ++ [rbraceChar]) := by
              rw [ht]
              have hlen : (lbraceChar :: (inner ++ [rbraceChar])).length = inner.length + 1 + 1 := by
                simp
              rw [hlen, List.take_succ_cons, take_length_add_one]
            rw [if_pos hcond]
            exact ⟨_, _, rfl⟩
          · rw [if_neg hhas]
            exact ⟨[dollarChar], 0, rfl⟩
        | none =>
          simp only [hbp]
          by_cases h1 : c = '&'
          · rw [if_pos h1]; exact ⟨_, _, rfl⟩
          · rw [if_neg h1]
            by_cases h2 : c = '+'
            · rw [if_pos h2]; exact ⟨_, _, rfl⟩
            · rw [if_neg h2]
              by_cases h3 : c = '_'
              · rw [if_pos h3]; exact ⟨_, _, rfl⟩
              · rw [if_neg h3]
                by_cases h4 : c = bquoteChar
                · rw [if_pos h4]; exact ⟨_, _, rfl⟩
                · rw [if_neg h4]
                  by_cases h5 : c = squoteChar
                  · rw [if_pos h5]; exact ⟨_, _, rfl⟩
                  · rw [if_neg h5]
                    exact ⟨[dollarChar], 0, rfl⟩

/-- The replacement scan loop never throws. -/
theorem resultLoop_ok (m : MatchR) : ∀ (n : Nat) (l : Str), l.length ≤ n →
    ∃ out, resultLoop m l = Except.ok out := by
  intro n
  induction n with
  | zero =>
    intro l hl
    have he : l = [] := List.eq_nil_of_length_eq_zero (Nat.le_zero.mp hl)
    subst he
    exact ⟨[], by rw [resultLoop]⟩
  | succ n ihn =>
    intro l hl
    cases l with
    | nil => exact ⟨[], by rw [resultLoop]⟩
    | cons c rest =>
      rw [resultLoop]
      by_cases hc : c = dollarChar
      · rw [if_pos hc]
        obtain ⟨p, k, hdb⟩ := dollarBranch_ok m rest
        obtain ⟨out, hout⟩ := ihn (rest.drop k) (by simp at hl ⊢; omega)
        simp only [hdb, hout]
        exact ⟨p ++ out, rfl⟩
      · rw [if_neg hc]
        obtain ⟨out, hout⟩ := ihn rest (by simp at hl; omega)
        simp only [hout]
        exact ⟨c :: out, rfl⟩

/-- Every match produced by `getMatch` is successful. -/
theorem getMatchF_success (ast : Ast) :
    ∀ (fuel : Nat) (st st1 : EState) (m : MatchR),
      Regex.getMatchF ast fuel st = some (some m, st1) → m.success = true := by
  intro fuel
  induction fuel with
  | zero => intro st st1 m h; simp [Regex.getMatchF] at h
  | succ fuel ih =>
    intro st st1 m h
    simp only [Regex.getMatchF] at h
    by_cases hob : st.outOfBounds = true
    · rw [if_pos hob] at h
      simp at h
    · rw [if_neg hob] at h
      cases hast : ast st with
      | mk o st1p =>
        cases o with
        | some u =>
          simp only [hast, Option.some.injEq, Prod.mk.injEq] at h
          obtain ⟨hm, _⟩ := h
          subst hm
          rfl
        | none =>
          simp only [hast] at h
          exact ih (st1p.advance 1) st1 m h

/-- Every match produced by the `matches` loop is successful. -/
theorem matchesF_success (ast : Ast) :
    ∀ (fuel : Nat) (st stf : EState) (ms : List MatchR),
      Regex.matchesF ast fuel st = some (ms, stf) → ∀ m ∈ ms, m.success = true := by
  intro fuel
  induction fuel with
  | zero => intro st stf ms h; simp [Regex.matchesF] at h
  | succ fuel ih =>
    intro st stf ms h
    rw [Regex.matchesF] at h
    cases hgm : Regex.getMatchF ast (Nat.succ fuel) st with
    | none =>
      rw [hgm] at h
      simp at h
    | some r =>
      obtain ⟨om, st1⟩ := r
      cases om with
      | none =>
        rw [hgm] at h
        simp only [Option.some.injEq, Prod.mk.injEq] at h
        obtain ⟨hms, _⟩ := h
        subst hms
        intro m hm
        exact absurd hm (List.not_mem_nil m)
      | some m0 =>
        rw [hgm] at h
        simp only at h
        cases hrec : Regex.matchesF ast fuel (if m0.length = 0 then st1.advance 1 else st1) with
        | none =>
          rw [hrec] at h
          simp at h
        | some r2 =>
          obtain ⟨ms2, stf2⟩ := r2
          rw [hrec] at h
          simp only [Option.some.injEq, Prod.mk.injEq] at h
          obtain ⟨hms, _⟩ := h
          subst hms
          intro m hm
          rcases List.mem_cons.mp hm with rfl | hm2
          · exact getMatchF_success ast (Nat.succ fuel) st st1 m hgm
          · exact ih _ stf2 ms2 hrec m hm2

/-- Every match returned by the top-level `matches` is successful. -/
theorem matchesTop_success (ast : Ast) (fuel : Nat) (input : Str) (start : Option Int)
    (rtl : Bool) (gn : List Str) (ms : List MatchR)
    (h : Regex.matchesTop ast fuel input start rtl gn = some ms) :
    ∀ m ∈ ms, m.success = true := by
  unfold Regex.matchesTop at h
  cases hmf : Regex.matchesF ast fuel (Regex.createState input start none rtl gn) with
  | none =>
    rw [hmf] at h
    simp at h
  | some r =>
    obtain ⟨ms0, stf⟩ := r
    rw [hmf] at h
    simp at h
    subst h
    exact matchesF_success ast fuel _ stf ms0 hmf

/-- The replacement splice never throws when all its matches succeeded. -/
theorem replaceGo_ok (input replacement : Str) :
    ∀ (ms : List MatchR) (idx : Int), (∀ m ∈ ms, m.success = true) →
      ∃ out, Regex.replaceGo input replacement ms idx = Except.ok out := by
  intro ms
  induction ms with
  | nil => intro idx _; exact ⟨_, rfl⟩
  | cons m rest ih =>
    intro idx hs
    obtain ⟨r0, hr0⟩ := resultLoop_ok m replacement.length replacement le_rfl
    obtain ⟨t0, ht0⟩ := ih (m.index + (m.length : Int)) (fun x hx => hs x (List.mem_cons_of_mem m hx))
    refine ⟨jsSubstring input idx m.index ++ r0 ++ t0, ?_⟩
    have hms : m.result replacement = Except.ok r0 := by
      rw [MatchR.result, hs m (List.mem_cons_self m rest)]
      simpa using hr0
    rw [Regex.replaceGo]
    simp only [hms, ht0]

/-- C8: `replace` throws exactly when `count < -1` and `split` exactly when
`count < 0` (and then with the documented messages); `result()` on a failed
match throws; an unmatched input is not an error — the search loop
reporting no match makes `match` return the `Match.empty` sentinel, whose
`success` is `false`. -/
theorem c8_runtime_errors (ast : Ast) (fuel : Nat) (input replacement : Str)
    (count : Int) (start : Option Int) (rtl : Bool) (gn : List Str) (m : MatchR) :
    (count < -1 →
      Regex.replace ast fuel input replacement count start rtl gn =
        some (Except.error "Count cannot be less than -1.")) ∧
    (-1 ≤ count → ∀ r, Regex.replace ast fuel input replacement count start rtl gn = some r →
      ∃ out, r = Except.ok out) ∧
    (count < 0 →
      Regex.split ast fuel input count start rtl gn =
        some (Except.error "Count cannot be less than 0.")) ∧
    (0 ≤ count → ∀ r, Regex.split ast fuel input count start rtl gn = some r →
      ∃ out, r = Except.ok out) ∧
    (m.success = false →
      m.result replacement = Except.error "Cannot perform a replacement with a failed match.") ∧
    (∀ (length2 : Option Int) (stx : EState),
      Regex.getMatchF ast fuel (Regex.createState input start length2 rtl gn) =
        some (none, stx) →
      Regex.matchF ast fuel input start length2 rtl gn = some MatchR.empty ∧
        MatchR.empty.success = false) := by
  refine ⟨?_, ?_, ?_, ?_, ?_, ?_⟩
  · intro hc
    rw [Regex.replace, if_pos hc]
  · intro hc r hr
    rw [Regex.replace, if_neg (by omega)] at hr
    cases hmt : Regex.matchesTop ast fuel input start rtl gn with
    | none =>
      rw [hmt] at hr
      simp at hr
    | some ms =>
      rw [hmt] at hr
      simp only at hr
      have hsucc := matchesTop_success ast fuel input start rtl gn ms hmt
      have hsucc2 : ∀ x ∈ (if rtl then (if 0 ≤ count then ms.take count.toNat else ms).reverse
          else (if 0 ≤ count then ms.take count.toNat else ms)), x.success = true := by
        intro x hx
        apply hsucc
        have hx2 : x ∈ (if 0 ≤ count then ms.take count.toNat else ms) := by
          by_cases h1 : rtl = true
          · rw [if_pos h1] at hx
            exact List.mem_reverse.mp hx
          · rw [if_neg h1] at hx
            exact hx
        by_cases h2 : 0 ≤ count
        · rw [if_pos h2] at hx2
          exact List.mem_of_mem_take hx2
        · rw [if_neg h2] at hx2
          exact hx2
      obtain ⟨out, hout⟩ := replaceGo_ok input replacement _ 0 hsucc2
      have hXr := Option.some.inj hr
      refine ⟨out, ?_⟩
      rw [← hXr]
      exact hout
  · intro hc
    rw [Regex.split, if_pos hc]
  · intro hc r hr
    rw [Regex.split, if_neg (by omega)] at hr
    cases hmt : Regex.matchesTop ast fuel input start rtl gn with
    | none =>
      rw [hmt] at hr
      simp at hr
    | some ms =>
      rw [hmt] at hr
      simp only at hr
      exact ⟨_, (Option.some.inj hr).symm⟩
  · intro hf
    rw [MatchR.result, hf]
    rfl
  · intro length2 stx hgm
    constructor
    · rw [Regex.matchF, hgm]
      simp
    · rfl
